import Mathlib

/-!
# Verification of the FEAST Constraint Retrieval & Ranking Engine

Shallow embedding of the retrieval/ranking core of the FEAST recipe
assistant (`recipe_db.py`, `actions.py`, `recommendation_engine.py`) and
proofs of the testable properties stated in its specification.

Conventions of the embedding:
* Python dicts with a fixed known key set become structures with `Option`
  fields (`none` = key absent); preference maps, whose key set is open,
  become association lists in insertion order.
* MongoDB `$regex` with `$options: "i"` is modelled as case-insensitive
  substring containment (preference values are treated as literal
  patterns, which is how the engine uses them).
* Python exceptions (`KeyError`, `ValueError`/`IndexError` from parsing,
  and any catalog-store failure) are modelled with `Except PyErr`.
* `list.sort(key=…, reverse=True)` is modelled by a stable descending
  insertion sort (`insSortBy`), matching CPython's stable sort semantics.
* Real-valued similarity arithmetic is modelled over `ℝ`; feature values
  and ratings, which are rational in all inputs of interest, stay in `ℚ`.
-/

namespace Feast

/-! ## String helpers (Python `str.lower`, `str.strip`, `in`, `re.search`) -/

/-- Substring test on character lists: Python's `needle in hay`. -/
def hasSubstr (hay needle : List Char) : Bool :=
  needle.isPrefixOf hay ||
    (match hay with
     | [] => false
     | _ :: t => hasSubstr t needle)

/-- Python `needle in hay` on strings. -/
def strIn (needle hay : String) : Bool :=
  hasSubstr hay.data needle.data

/-- Python `str.lower()` (ASCII case folding suffices for this code base). -/
def lowerStr (s : String) : String :=
  ⟨s.data.map Char.toLower⟩

/-- Python `str.strip()`. -/
def stripStr (s : String) : String :=
  ⟨((s.data.dropWhile Char.isWhitespace).reverse.dropWhile Char.isWhitespace).reverse⟩

/-- Value of a digit run, `int` on a digit string. -/
def digitsToNat (ds : List Char) : Nat :=
  ds.foldl (fun a c => 10 * a + (c.toNat - 48)) 0

/-- First maximal digit run of a string: `re.search(r"(\d+)", s)`,
returning `int(match.group(1))` when a digit occurs. -/
def extractFirstNat (s : String) : Option Nat :=
  go s.data
where
  go : List Char → Option Nat
    | [] => none
    | c :: cs =>
      if c.isDigit then some (digitsToNat (c :: cs.takeWhile Char.isDigit))
      else go cs

/-! ## Data model -/

/-- A recipe record.  Catalog documents and the built-in seed recipes use
two naming conventions (`RecipeName`/`Cuisine`/`TotalTimeInMins` for the
catalog, `cuisine`/`course`/`time` for the seed set); the engine reads
both, so the model carries both groups.  `Option` marks fields whose
presence the Python code tests with `in` / `.get`. -/
structure Recipe where
  RecipeName : Option String := none
  Description : Option String := none
  Cuisine : Option String := none
  TotalTimeInMins : Option Nat := none
  diet : Option String := none
  cuisine : Option String := none
  course : Option String := none
  time : Option String := none
  taste : Option String := none
  ingredients : List String := []
  deriving Repr, DecidableEq

/-- A preference map: association list in insertion order, mirroring a
Python dict. -/
abbrev Prefs := List (String × String)

/-- `preferences.get(k)` (first binding wins, as in a dict with unique keys). -/
def getPref (p : Prefs) (k : String) : Option String :=
  (p.find? (fun kv => kv.1 = k)).map (·.2)

/-- The keys of a preference map, `list(preferences.keys())`. -/
def prefKeys (p : Prefs) : List String := p.map (·.1)

/-- Python truthiness of `preferences.get(k)`: present with a non-empty value. -/
def truthy (p : Prefs) (k : String) : Bool :=
  (getPref p k).getD "" ≠ ""

/-- `del preferences[k]` (the copy-and-delete used by the relaxation loop). -/
def delKey (p : Prefs) (k : String) : Prefs :=
  p.filter (fun kv => kv.1 ≠ k)

/-- Python exception kinds reachable in the embedded code. -/
inductive PyErr
  | storeFailure
  | keyError
  | valueError
  deriving Repr, DecidableEq

/-! ## The catalog query model (`build_optimized_query`)

The builder manipulates a dict whose keys range over `diet`, `Cuisine`,
`$or`, `ingredients`, `TotalTimeInMins`, `$and`; we model it as a
structure of `Option` fields plus condition trees of the shapes the code
actually constructs. -/

/-- Leaf conditions appearing inside `$or` / `$and` lists. -/
inductive QLeaf
  | recipeNameRegex (pat : String)
  | descriptionRegex (pat : String)
  | ingredientsRegex (pat : String)
  | ingredientsNotRegex (pat : String)
  | totalTimeLt (n : Nat)
  deriving Repr, DecidableEq

/-- Elements of a `$and` list: a leaf or an `$or` of leaves. -/
inductive QCond
  | leaf (l : QLeaf)
  | orOf (ls : List QLeaf)
  deriving Repr, DecidableEq

/-- The `ingredients` entry of the query dict: positive or `$not` regex. -/
inductive IngCond
  | regex (pat : String)
  | notRegex (pat : String)
  deriving Repr, DecidableEq

/-- The query dict built by `build_optimized_query`. -/
structure Query where
  diet : Option String := none
  Cuisine : Option String := none
  orCond : Option (List QLeaf) := none
  ingredients : Option IngCond := none
  TotalTimeInMins : Option Nat := none
  andCond : Option (List QCond) := none
  deriving Repr, DecidableEq

/-- Case-insensitive regex-as-substring match on an optional field; a
missing field never matches. -/
def fieldMatches (field : Option String) (pat : String) : Bool :=
  match field with
  | none => false
  | some s => strIn (lowerStr pat) (lowerStr s)

def matchLeaf (r : Recipe) : QLeaf → Bool
  | .recipeNameRegex pat => fieldMatches r.RecipeName pat
  | .descriptionRegex pat => fieldMatches r.Description pat
  | .ingredientsRegex pat => r.ingredients.any (fun i => strIn (lowerStr pat) (lowerStr i))
  | .ingredientsNotRegex pat => !(r.ingredients.any (fun i => strIn (lowerStr pat) (lowerStr i)))
  | .totalTimeLt n =>
    match r.TotalTimeInMins with
    | none => false
    | some t => t < n

def matchCond (r : Recipe) : QCond → Bool
  | .leaf l => matchLeaf r l
  | .orOf ls => ls.any (matchLeaf r)

def matchIng (r : Recipe) : IngCond → Bool
  | .regex pat => r.ingredients.any (fun i => strIn (lowerStr pat) (lowerStr i))
  | .notRegex pat => !(r.ingredients.any (fun i => strIn (lowerStr pat) (lowerStr i)))

/-- Semantics of a query dict: the conjunction of its present entries. -/
def matchQuery (q : Query) (r : Recipe) : Bool :=
  (match q.diet with | none => true | some pat => fieldMatches r.diet pat) &&
  (match q.Cuisine with | none => true | some pat => fieldMatches r.Cuisine pat) &&
  (match q.orCond with | none => true | some ls => ls.any (matchLeaf r)) &&
  (match q.ingredients with | none => true | some c => matchIng r c) &&
  (match q.TotalTimeInMins with
   | none => true
   | some n => matchLeaf r (.totalTimeLt n)) &&
  (match q.andCond with | none => true | some cs => cs.all (matchCond r))

/-! ## `build_optimized_query` -/

/-- Steps for `diet`, `cuisine`, `course`, `ingredient` (recipe_db.py
lines 98–129).  Note that when both a `course` `$or` and an `ingredient`
filter are present, the code rebuilds the dict as `{"$and": […]}`,
discarding any `diet`/`Cuisine` entries — reproduced faithfully. -/
def buildBase (p : Prefs) : Query :=
  let q : Query := {}
  let q := if truthy p "diet" then
      { q with diet := some (lowerStr ((getPref p "diet").getD "")) } else q
  let q := if truthy p "cuisine" then
      { q with Cuisine := some ((getPref p "cuisine").getD "") } else q
  let q := if truthy p "course" then
      let c := (getPref p "course").getD ""
      { q with orCond := some [.recipeNameRegex c, .descriptionRegex c] } else q
  let q := if truthy p "ingredient" then
      let v := (getPref p "ingredient").getD ""
      match q.orCond with
      | some existingOr =>
        { andCond := some [.orOf existingOr, .leaf (.ingredientsRegex v)] }
      | none => { q with ingredients := some (.regex v) }
    else q
  q

/-- The `exclude_ingredient` step (lines 131–153).  In the branch that
rebuilds the dict from an existing `$or`, the code then executes
`del query["$or"]` on the freshly rebuilt dict, which no longer has an
`$or` key — a `KeyError`, reproduced here as `.error .keyError`. -/
def buildExclude (p : Prefs) (q : Query) : Except PyErr Query :=
  if truthy p "exclude_ingredient" then
    let v := (getPref p "exclude_ingredient").getD ""
    match q.andCond with
    | some cs => .ok { q with andCond := some (cs ++ [.leaf (.ingredientsNotRegex v)]) }
    | none =>
      match q.orCond with
      | some existingOr =>
        let q' : Query := { andCond := some [.orOf existingOr, .leaf (.ingredientsNotRegex v)] }
        -- del query["$or"]: the rebuilt dict has no "$or" key
        match q'.orCond with
        | some _ => .ok { q' with orCond := none }
        | none => .error .keyError
      | none => .ok { q with ingredients := some (.notRegex v) }
  else .ok q

/-- The time-constraint step (lines 155–173): the substrings
`quick`/`fast`/`easy` give `TotalTimeInMins < 30`; `under`/`less than`
with a number give `< n`; anything else adds no condition. -/
def buildTime (p : Prefs) (q : Query) : Query :=
  if truthy p "time" then
    let tv := lowerStr ((getPref p "time").getD "")
    if strIn "quick" tv || strIn "fast" tv || strIn "easy" tv then
      match q.andCond with
      | some cs => { q with andCond := some (cs ++ [.leaf (.totalTimeLt 30)]) }
      | none => { q with TotalTimeInMins := some 30 }
    else if strIn "under" tv || strIn "less than" tv then
      match extractFirstNat tv with
      | some m =>
        match q.andCond with
        | some cs => { q with andCond := some (cs ++ [.leaf (.totalTimeLt m)]) }
        | none => { q with TotalTimeInMins := some m }
      | none => q
    else q
  else q

/-- `build_optimized_query(preferences)` (recipe_db.py lines 94–174). -/
def buildOptimizedQuery (p : Prefs) : Except PyErr Query :=
  match buildExclude p (buildBase p) with
  | .error e => .error e
  | .ok q => .ok (buildTime p q)

/-! ## The in-memory seed set and the local filter (`SAMPLE_RECIPES`,
`filter_recipes`) -/

/-- `SAMPLE_RECIPES` (recipe_db.py lines 31–34): the literal list in the
source contains only a comment — it is empty. -/
def SAMPLE_RECIPES : List Recipe := []

/-- Python `s.split()`: whitespace-separated words. -/
def wordsChar (l : List Char) : List (List Char) :=
  (l.foldr
    (fun c acc =>
      if c.isWhitespace then [] :: acc
      else
        match acc with
        | [] => [[c]]
        | w :: ws => (c :: w) :: ws)
    []).filter (fun w => !w.isEmpty)

/-- Python `int(token)` on a word: digits parse, anything else raises. -/
def pyInt (w : List Char) : Except PyErr Nat :=
  if w ≠ [] && w.all Char.isDigit then .ok (digitsToNat w) else .error .valueError

/-- The per-recipe test of `filter_recipes` (recipe_db.py lines 264–303).
The `time` branch parses `recipe["time"].split()[0]` with `int`, which
can raise (`IndexError`/`ValueError`) — modelled with `Except`. -/
def recipeMatch (p : Prefs) (r : Recipe) : Except PyErr Bool := do
  let m := true
  let m :=
    if truthy p "diet" &&
        (lowerStr ((getPref p "diet").getD "") != lowerStr (r.diet.getD "")) &&
        (lowerStr ((getPref p "diet").getD "") == "vegetarian") &&
        (r.diet == some "non-vegetarian")
      then false else m
  let m :=
    if truthy p "cuisine" &&
        !(strIn (lowerStr ((getPref p "cuisine").getD "")) (lowerStr (r.cuisine.getD "")))
      then false else m
  let m :=
    if truthy p "course" &&
        !(strIn (lowerStr ((getPref p "course").getD "")) (lowerStr (r.course.getD "")))
      then false else m
  let m :=
    if truthy p "ingredient" &&
        !(r.ingredients.any fun i =>
            strIn (lowerStr ((getPref p "ingredient").getD "")) (lowerStr i))
      then false else m
  let m :=
    if truthy p "exclude_ingredient" &&
        (r.ingredients.any fun i =>
            strIn (lowerStr ((getPref p "exclude_ingredient").getD "")) (lowerStr i))
      then false else m
  if truthy p "time" && strIn "quick" (lowerStr ((getPref p "time").getD "")) then
    let rt := r.time.getD ""
    if strIn "hour" (lowerStr rt) then pure false
    else
      match wordsChar rt.data with
      | [] => .error .valueError
      | w :: _ => do
        let n ← pyInt w
        if n > 30 then pure false else pure m
  else
    pure m

/-- `filter_recipes(recipes, preferences)`. -/
def filterRecipes (rs : List Recipe) (p : Prefs) : Except PyErr (List Recipe) :=
  match rs with
  | [] => .ok []
  | r :: rest => do
    let m ← recipeMatch p r
    let tail ← filterRecipes rest p
    if m then pure (r :: tail) else pure tail

/-! ## The catalog store and `search_with_fallback` -/

/-- State of the MongoDB connection: `collection is None`, or available
over a catalog, possibly failing (every store call raises). -/
inductive Store
  | unavailable
  | avail (catalog : List Recipe) (failing : Bool)

/-- `list(collection.find(query).limit(lim))`. -/
def findLimited (catalog : List Recipe) (failing : Bool) (q : Query) (lim : Nat) :
    Except PyErr (List Recipe) :=
  if failing then .error .storeFailure
  else .ok ((catalog.filter (matchQuery q)).take lim)

/-- The `{results, relaxed}` value returned by `search_with_fallback`. -/
structure SearchResult where
  results : List Recipe
  relaxed : List String
  deriving Repr, DecidableEq

/-- The fixed relaxation priority order (recipe_db.py lines 191, 221). -/
def relaxationOrder : List String :=
  ["time", "taste", "exclude_ingredient", "ingredient", "course", "cuisine", "diet"]

/-- The constraint-relaxation loop of the store-backed path
(recipe_db.py lines 223–236): `.inl` is a `return` from inside the loop,
`.inr` carries the relaxed keys on fall-through or `break`. -/
def relaxLoop (catalog : List Recipe) (failing : Bool) (maxRelax : Nat) :
    List String → Prefs → List String → Except PyErr (SearchResult ⊕ List String)
  | [], _, relaxed => .ok (.inr relaxed)
  | c :: rest, rp, relaxed =>
    if c ∈ prefKeys rp then
      match buildOptimizedQuery (delKey rp c) with
      | .error e => .error e
      | .ok q =>
        match findLimited catalog failing q 10 with
        | .error e => .error e
        | .ok results =>
          if results ≠ [] then .ok (.inl ⟨results, relaxed ++ [c]⟩)
          else if maxRelax ≤ (relaxed ++ [c]).length then .ok (.inr (relaxed ++ [c]))
          else relaxLoop catalog failing maxRelax rest (delKey rp c) (relaxed ++ [c])
    else relaxLoop catalog failing maxRelax rest rp relaxed

/-- The relaxation loop of the store-unavailable path (lines 193–204),
filtering the seed set instead of querying. -/
def localRelaxLoop (maxRelax : Nat) :
    List String → Prefs → List String → Except PyErr (SearchResult ⊕ List String)
  | [], _, relaxed => .ok (.inr relaxed)
  | c :: rest, rp, relaxed =>
    if c ∈ prefKeys rp then
      match filterRecipes SAMPLE_RECIPES (delKey rp c) with
      | .error e => .error e
      | .ok results =>
        if results ≠ [] then .ok (.inl ⟨results, relaxed ++ [c]⟩)
        else if maxRelax ≤ (relaxed ++ [c]).length then .ok (.inr (relaxed ++ [c]))
        else localRelaxLoop maxRelax rest (delKey rp c) (relaxed ++ [c])
    else localRelaxLoop maxRelax rest rp relaxed

/-- The last-resort query of `search_with_fallback` (lines 249–251):
return any recipes, reporting every original key as relaxed. -/
def lastResort (catalog : List Recipe) (failing : Bool) (p : Prefs) :
    Except PyErr SearchResult :=
  match findLimited catalog failing {} 10 with
  | .error e => .error e
  | .ok r => .ok ⟨r, prefKeys p⟩

/-- The minimal-constraint diet query after the relaxation loop
(lines 238–247), falling through to the last resort. -/
def dietMinimal (catalog : List Recipe) (failing : Bool) (p : Prefs)
    (relaxed : List String) : Except PyErr SearchResult :=
  if "diet" ∈ prefKeys p then
    match buildOptimizedQuery [("diet", (getPref p "diet").getD "")] with
    | .error e => .error e
    | .ok mq =>
      match findLimited catalog failing mq 10 with
      | .error e => .error e
      | .ok mres =>
        if mres ≠ [] then
          .ok ⟨mres, relaxed ++ (prefKeys p).filter
            (fun k => k != "diet" && !(relaxed.contains k))⟩
        else lastResort catalog failing p
  else lastResort catalog failing p

/-- The body of the `try` block of `search_with_fallback`
(recipe_db.py lines 178–251). -/
def searchInner (st : Store) (p : Prefs) (maxRelax : Nat) : Except PyErr SearchResult :=
  match st with
  | .unavailable =>
    match filterRecipes SAMPLE_RECIPES p with
    | .error e => .error e
    | .ok results =>
      if results ≠ [] then .ok ⟨results, []⟩
      else
        match localRelaxLoop maxRelax relaxationOrder p [] with
        | .error e => .error e
        | .ok (.inl res) => .ok res
        | .ok (.inr _) => .ok ⟨SAMPLE_RECIPES.take 5, prefKeys p⟩
  | .avail catalog failing =>
    match buildOptimizedQuery p with
    | .error e => .error e
    | .ok q =>
      match findLimited catalog failing q 10 with
      | .error e => .error e
      | .ok results =>
        if results ≠ [] then .ok ⟨results, []⟩
        else
          match relaxLoop catalog failing maxRelax relaxationOrder p [] with
          | .error e => .error e
          | .ok (.inl res) => .ok res
          | .ok (.inr relaxed) => dietMinimal catalog failing p relaxed

/-- `search_with_fallback(preferences, max_relaxations=3)` (lines
176–262): the `except` handler falls back to filtering the seed set; the
handler itself runs outside the `try`, so its own exceptions would
propagate. -/
def searchWithFallback (st : Store) (p : Prefs) (maxRelax : Nat := 3) :
    Except PyErr SearchResult :=
  match searchInner st p maxRelax with
  | .ok r => .ok r
  | .error _ =>
    match filterRecipes SAMPLE_RECIPES p with
    | .error e => .error e
    | .ok results =>
      if results ≠ [] then .ok ⟨results, []⟩
      else .ok ⟨SAMPLE_RECIPES.take 5, prefKeys p⟩

/-! ## A stable descending sort, modelling `list.sort(key=…, reverse=True)`

CPython's sort is stable, and `reverse=True` reverses comparisons while
still keeping equal elements in their original relative order.  A
left-to-right insertion sort that places each element after all existing
elements of greater-or-equal key has exactly these properties. -/

/-- Insert `x` after every element whose key is `≥ key x`. -/
def insDesc {α β : Type} [LinearOrder β] (key : α → β) (x : α) : List α → List α
  | [] => [x]
  | y :: ys => if key x ≤ key y then y :: insDesc key x ys else x :: y :: ys

/-- Stable descending sort by `key`. -/
def insSortBy {α β : Type} [LinearOrder β] (key : α → β) (l : List α) : List α :=
  l.foldl (fun acc x => insDesc key x acc) []

/-- Descending sortedness by `key`. -/
def SortedDesc {α β : Type} [LinearOrder β] (key : α → β) (l : List α) : Prop :=
  l.Pairwise (fun a b => key b ≤ key a)

theorem insDesc_perm {α β : Type} [LinearOrder β] (key : α → β) (x : α) :
    ∀ l : List α, List.Perm (insDesc key x l) (x :: l) := by
  intro l
  induction l with
  | nil => simp [insDesc]
  | cons y ys ih =>
    by_cases h : key x ≤ key y
    · simpa [insDesc, h] using ((ih.cons y).trans (List.Perm.swap x y ys))
    · simp [insDesc, h]

theorem mem_insDesc {α β : Type} [LinearOrder β] {key : α → β} {x b : α} {l : List α} :
    b ∈ insDesc key x l ↔ b = x ∨ b ∈ l := by
  have h1 : b ∈ insDesc key x l ↔ b ∈ x :: l := (insDesc_perm key x l).mem_iff
  simpa using h1

theorem insDesc_sorted {α β : Type} [LinearOrder β] (key : α → β) (x : α) {l : List α}
    (hl : SortedDesc key l) : SortedDesc key (insDesc key x l) := by
  induction l with
  | nil => simp [insDesc, SortedDesc]
  | cons y ys ih =>
    rcases List.pairwise_cons.mp hl with ⟨hy, hys⟩
    by_cases h : key x ≤ key y
    · have htail : SortedDesc key (insDesc key x ys) := ih hys
      have hhead : ∀ b ∈ insDesc key x ys, key b ≤ key y := by
        intro b hb
        rcases mem_insDesc.mp hb with rfl | hb
        · exact h
        · exact hy b hb
      simpa [insDesc, h, SortedDesc, List.pairwise_cons] using ⟨hhead, htail⟩
    · push_neg at h
      have hhead : ∀ b ∈ y :: ys, key b ≤ key x := by
        intro b hb
        rcases List.mem_cons.mp hb with rfl | hb
        · exact h.le
        · exact (hy b hb).trans h.le
      have : SortedDesc key (x :: y :: ys) :=
        List.pairwise_cons.mpr ⟨hhead, hl⟩
      simpa [insDesc, not_le.mpr h] using this

theorem insSortBy_aux_perm {α β : Type} [LinearOrder β] (key : α → β) :
    ∀ (l acc : List α),
      List.Perm (l.foldl (fun acc x => insDesc key x acc) acc) (acc ++ l) := by
  intro l
  induction l with
  | nil => intro acc; simp
  | cons x xs ih =>
    intro acc
    have h1 : (x :: xs).foldl (fun acc x => insDesc key x acc) acc
        = xs.foldl (fun acc x => insDesc key x acc) (insDesc key x acc) := by
      simp [List.foldl_cons]
    have h2 := ih (insDesc key x acc)
    have h3 : List.Perm (insDesc key x acc ++ xs) ((x :: acc) ++ xs) :=
      (insDesc_perm key x acc).append_right xs
    have h4 : List.Perm ((x :: acc) ++ xs) (acc ++ x :: xs) := by
      simpa using (@List.perm_middle _ x acc xs).symm
    exact h1 ▸ (h2.trans (h3.trans h4))

theorem insSortBy_perm {α β : Type} [LinearOrder β] (key : α → β) (l : List α) :
    List.Perm (insSortBy key l) l := by
  simpa using insSortBy_aux_perm key l []

theorem insSortBy_aux_sorted {α β : Type} [LinearOrder β] (key : α → β) :
    ∀ (l acc : List α), SortedDesc key acc →
      SortedDesc key (l.foldl (fun acc x => insDesc key x acc) acc) := by
  intro l
  induction l with
  | nil => intro acc h; simpa using h
  | cons x xs ih =>
    intro acc h
    simpa [List.foldl_cons] using ih (insDesc key x acc) (insDesc_sorted key x h)

theorem insSortBy_sorted {α β : Type} [LinearOrder β] (key : α → β) (l : List α) :
    SortedDesc key (insSortBy key l) := by
  simpa [insSortBy] using insSortBy_aux_sorted key l [] (by simp [SortedDesc])

theorem filter_eq_nil_of_lt {α β : Type} [LinearOrder β] (key : α → β) {q : β} {l : List α}
    (htop : ∀ b ∈ l, key b < q) :
    l.filter (fun a => key a = q) = [] := by
  refine List.filter_eq_nil_iff.mpr ?_
  intro b hb
  simpa using (htop b hb).ne

theorem insDesc_filter {α β : Type} [LinearOrder β] (key : α → β) (q : β) (x : α)
    {l : List α} (hl : SortedDesc key l) :
    (insDesc key x l).filter (fun a => key a = q) =
      l.filter (fun a => key a = q) ++ (if key x = q then [x] else []) := by
  induction l with
  | nil => by_cases h : key x = q <;> simp [insDesc, h]
  | cons y ys ih =>
    rcases List.pairwise_cons.mp hl with ⟨hy, hys⟩
    by_cases h : key x ≤ key y
    · have hstep : insDesc key x (y :: ys) = y :: insDesc key x ys := by
        simp [insDesc, h]
      rw [hstep, List.filter_cons, ih hys, List.filter_cons]
      split <;> simp
    · push_neg at h
      have hstep : insDesc key x (y :: ys) = x :: y :: ys := by
        simp [insDesc, not_le.mpr h]
      by_cases hxq : key x = q
      · have hnil : (y :: ys).filter (fun a => key a = q) = [] := by
          refine filter_eq_nil_of_lt key ?_
          intro b hb
          rcases List.mem_cons.mp hb with rfl | hb
          · exact hxq ▸ h
          · exact lt_of_le_of_lt (hy b hb) (hxq ▸ h)
        rw [hstep, List.filter_cons, hnil]
        simp [hxq]
      · rw [hstep, List.filter_cons]
        simp [hxq]

theorem insSortBy_aux_filter {α β : Type} [LinearOrder β] (key : α → β) (q : β) :
    ∀ (l acc : List α), SortedDesc key acc →
      (l.foldl (fun acc x => insDesc key x acc) acc).filter (fun a => key a = q) =
        acc.filter (fun a => key a = q) ++ l.filter (fun a => key a = q) := by
  intro l
  induction l with
  | nil => intro acc h; simp
  | cons x xs ih =>
    intro acc h
    have step := insDesc_filter key q x h
    by_cases hxq : key x = q <;>
      simp [List.foldl_cons, ih (insDesc key x acc) (insDesc_sorted key x h), step,
        List.filter_cons, hxq]

/-- Stability: a stable descending sort keeps the elements of any given
key value in their original relative order. -/
theorem insSortBy_filter {α β : Type} [LinearOrder β] (key : α → β) (q : β) (l : List α) :
    (insSortBy key l).filter (fun a => key a = q) = l.filter (fun a => key a = q) := by
  simpa [insSortBy] using insSortBy_aux_filter key q l [] (by simp [SortedDesc])

/-! ## `search_with_weighted_scoring` (recipe_db.py lines 436–558) -/

/-- The default weight table, in its insertion order. -/
def defaultWeights : List (String × ℚ) :=
  [("diet", 10), ("exclude_ingredient", 8), ("cuisine", 5), ("course", 4),
   ("time", 3), ("ingredient", 2), ("taste", 1)]

/-- The per-preference satisfaction test of the scoring loop
(lines 483–534); an unknown weight key matches no branch and never
scores. -/
def prefSatisfied (pref value : String) (r : Recipe) : Bool :=
  if pref == "diet" then
    r.diet.isSome && strIn (lowerStr value) (lowerStr (r.diet.getD ""))
  else if pref == "exclude_ingredient" then
    !(r.ingredients.any fun i => strIn (lowerStr value) (lowerStr i))
  else if pref == "cuisine" then
    r.Cuisine.isSome && strIn (lowerStr value) (lowerStr (r.Cuisine.getD ""))
  else if pref == "course" then
    (r.RecipeName.isSome && strIn (lowerStr value) (lowerStr (r.RecipeName.getD ""))) ||
    (r.Description.isSome && strIn (lowerStr value) (lowerStr (r.Description.getD "")))
  else if pref == "time" then
    (r.time.isSome && strIn (lowerStr value) (lowerStr (r.time.getD ""))) ||
    (r.RecipeName.isSome && strIn "quick" (lowerStr (r.RecipeName.getD ""))) ||
    (r.Description.isSome && strIn "quick" (lowerStr (r.Description.getD "")))
  else if pref == "ingredient" then
    r.ingredients.any fun i => strIn (lowerStr value) (lowerStr i)
  else if pref == "taste" then
    (r.RecipeName.isSome && strIn (lowerStr value) (lowerStr (r.RecipeName.getD ""))) ||
    (r.Description.isSome && strIn (lowerStr value) (lowerStr (r.Description.getD ""))) ||
    (r.taste.isSome && strIn (lowerStr value) (lowerStr (r.taste.getD "")))
  else false

/-- `score` and `matches` accumulated over `weights.items()` for one
recipe (lines 471–534). -/
def scoreRecipe (p : Prefs) (weights : List (String × ℚ)) (r : Recipe) :
    ℚ × List String :=
  weights.foldl
    (fun acc kw =>
      if kw.1 ∈ prefKeys p then
        if prefSatisfied kw.1 ((getPref p kw.1).getD "") r then
          (acc.1 + kw.2, acc.2 ++ [kw.1])
        else acc
      else acc)
    (0, [])

/-- The score of a recipe alone (deterministic in recipe and inputs). -/
def scoreOf (p : Prefs) (weights : List (String × ℚ)) (r : Recipe) : ℚ :=
  (scoreRecipe p weights r).1

/-- One entry of `scored_recipes`. -/
structure ScoredEntry where
  recipe : Recipe
  score : ℚ
  matchedKeys : List String
  matchPercentage : ℚ
  deriving Repr, DecidableEq

def scoredEntries (p : Prefs) (weights : List (String × ℚ)) (pool : List Recipe) :
    List ScoredEntry :=
  pool.map (fun r =>
    let sm := scoreRecipe p weights r
    { recipe := r, score := sm.1, matchedKeys := sm.2,
      matchPercentage :=
        if p ≠ [] then (sm.2.length : ℚ) / (p.length : ℚ) else 0 })

/-- The minimal hard-filter query: `diet` and `exclude_ingredient` only,
added on key presence (lines 456–465). -/
def hardFilterQuery (p : Prefs) : Query :=
  let q : Query := {}
  let q := if "diet" ∈ prefKeys p then
      { q with diet := some ((getPref p "diet").getD "") } else q
  if "exclude_ingredient" ∈ prefKeys p then
    { q with ingredients := some (.notRegex ((getPref p "exclude_ingredient").getD "")) }
  else q

/-- `list(collection.find(query))` (no limit). -/
def findAll (catalog : List Recipe) (failing : Bool) (q : Query) :
    Except PyErr (List Recipe) :=
  if failing then .error .storeFailure else .ok (catalog.filter (matchQuery q))

/-- The dict returned by the scoring path. -/
structure RankResult where
  results : List Recipe
  detailedResults : List ScoredEntry
  totalMatches : Nat
  relaxed : List String
  deriving Repr, DecidableEq

/-- `search_with_weighted_scoring(preferences, weights=None)`; on any
store failure it falls back to `search_with_fallback`, whose result dict
has a different shape (`.inr`). -/
def searchWithWeightedScoring (st : Store) (p : Prefs)
    (wopt : Option (List (String × ℚ)) := none) :
    Except PyErr (RankResult ⊕ SearchResult) :=
  let weights := wopt.getD defaultWeights
  let poolE : Except PyErr (List Recipe) :=
    match st with
    | .unavailable => .ok SAMPLE_RECIPES
    | .avail catalog failing => findAll catalog failing (hardFilterQuery p)
  match poolE with
  | .ok pool =>
    let sorted := insSortBy (·.score) (scoredEntries p weights pool)
    .ok (.inl { results := (sorted.take 10).map (·.recipe),
                detailedResults := sorted.take 10,
                totalMatches := (scoredEntries p weights pool).length,
                relaxed := [] })
  | .error _ => (searchWithFallback st p).map .inr

/-! ## Pantry matching (`filter_by_available_ingredients`,
recipe_db.py lines 366–394) -/

/-- Number of recipe ingredients covered by the pantry: the bidirectional
substring test of lines 375–378, over lowercased ingredient strings. -/
def coveredCount (normalized recipeIngredients : List String) : Nat :=
  recipeIngredients.countP
    (fun ing => normalized.any (fun av => strIn av ing || strIn ing av))

/-- `match_percentage` of one recipe (line 381): guarded against an
empty ingredient list. -/
def matchFraction (available : List String) (r : Recipe) : ℚ :=
  let normalized := available.map (fun i => stripStr (lowerStr i))
  let ringr := r.ingredients.map lowerStr
  if ringr.isEmpty then 0
  else (coveredCount normalized ringr : ℚ) / (ringr.length : ℚ)

/-- `missing_ingredients` of one recipe (line 388). -/
def missingCount (available : List String) (r : Recipe) : Nat :=
  let normalized := available.map (fun i => stripStr (lowerStr i))
  let ringr := r.ingredients.map lowerStr
  ringr.length - coveredCount normalized ringr

/-- One entry of `ranked_recipes`. -/
structure PantryEntry where
  recipe : Recipe
  matchPercentage : ℚ
  missingIngredients : Nat
  deriving Repr, DecidableEq

def pantryEntries (recipes : List Recipe) (available : List String) (minMatch : ℚ) :
    List PantryEntry :=
  recipes.filterMap (fun r =>
    if minMatch ≤ matchFraction available r then
      some { recipe := r, matchPercentage := matchFraction available r,
             missingIngredients := missingCount available r }
    else none)

/-- `filter_by_available_ingredients(recipes, available_ingredients,
min_match_percentage=0.6)`: threshold, then sort by descending match
percentage only (line 392 — no secondary key). -/
def filterByAvailableIngredients (recipes : List Recipe) (available : List String)
    (minMatch : ℚ := 6/10) : List Recipe :=
  (insSortBy (·.matchPercentage) (pantryEntries recipes available minMatch)).map (·.recipe)

/-! ## The entity-based time conditions of `ActionGetRecipes.run`
(actions.py lines 395–411) -/

/-- The `time_conditions` list built from the `time` entity values:
the literal tokens `quick`/`fast`/`easy`/`simple` give
`TotalTimeInMins < 30`; a value containing `minute`/`min` with a number
gives `< n`; anything else contributes nothing. -/
def actionsTimeConditions (timeValues : List String) : List QLeaf :=
  timeValues.foldl
    (fun acc tv0 =>
      let tv := lowerStr tv0
      if tv ∈ (["quick", "fast", "easy", "simple"] : List String) then
        acc ++ [.totalTimeLt 30]
      else if strIn "minute" tv || strIn "min" tv then
        match extractFirstNat tv with
        | some m => acc ++ [.totalTimeLt m]
        | none => acc
      else acc)
    []

/-! ## The similarity / recommendation engine
(`recommendation_engine.py`)

State is passed explicitly: `recipe_features`, `recipe_similarity` and
`user_preferences` become parameters of the embedded methods.  Feature
values and ratings are `ℚ` (they are rational in every input the code
produces); the cosine arithmetic, which takes square roots, lives in
`ℝ`. -/

/-- A recipe's feature dict. -/
abbrev Features := List (String × ℚ)

/-- `self.recipe_features`. -/
abbrev FeatMap := List (String × Features)

/-- `self.recipe_similarity`. -/
abbrev SimMatrix := List (String × List (String × ℝ))

/-- `self.user_preferences` (user → recipe → rating). -/
abbrev UserPrefs := List (String × List (String × ℚ))

/-- `d.get(k, default)` on an association list. -/
def lookupD {α : Type} (l : List (String × α)) (k : String) (d : α) : α :=
  ((l.find? (fun kv => kv.1 = k)).map (·.2)).getD d

/-- The collected feature names (lines 48–54).  Python collects them into
a `set`, whose iteration order is unspecified; we fix last-occurrence
dedup order — cosine similarity is invariant under the ordering. -/
def featureNames (fm : FeatMap) : List String :=
  ((fm.map (·.2)).foldr (fun fs acc => fs.map (·.1) ++ acc) []).dedup

/-- The feature vector of one recipe over the collected names
(lines 56–65): `features.get(feature, 0)`. -/
def featVector (fm : FeatMap) (names : List String) (id : String) : List ℚ :=
  let features := lookupD fm id []
  names.map (fun f => lookupD features f 0)

/-- `np.dot` over equal-length vectors. -/
def dotQ (v w : List ℚ) : ℚ :=
  (List.zipWith (· * ·) v w).sum

/-- `np.linalg.norm`. -/
noncomputable def normR (v : List ℚ) : ℝ :=
  Real.sqrt ((dotQ v v : ℚ) : ℝ)

open Classical in
/-- The cosine-similarity branch of lines 80–88: `0.0` when either norm
is zero, the normalized dot product otherwise. -/
noncomputable def cosineSim (v w : List ℚ) : ℝ :=
  if normR v = 0 ∨ normR w = 0 then 0
  else ((dotQ v w : ℚ) : ℝ) / (normR v * normR w)

/-- `_compute_recipe_similarity` (lines 41–91): the double loop over
`enumerate(recipe_ids)` with the `i == j` self-similarity short-circuit;
with no features the method returns early, leaving the old matrix. -/
noncomputable def computeRecipeSimilarity (fm : FeatMap) (old : SimMatrix) : SimMatrix :=
  if fm.isEmpty then old
  else
    let ids := fm.map (·.1)
    let names := featureNames fm
    ids.enum.map (fun iR =>
      (iR.2, ids.enum.map (fun jR =>
        (jR.2,
          if iR.1 = jR.1 then (1 : ℝ)
          else cosineSim (featVector fm names iR.2) (featVector fm names jR.2)))))

/-- `similarity[a][b]` (defaulting where absent, for statement purposes
only — the theorems quantify over present entries). -/
noncomputable def simVal (m : SimMatrix) (a b : String) : ℝ :=
  lookupD (lookupD m a []) b 0

/-- `get_similar_recipes(recipe_id, n=5)` (lines 108–120): sort the row
descending by similarity and return entries `[1:n+1]`. -/
noncomputable def getSimilarRecipes (m : SimMatrix) (recipeId : String) (n : Nat := 5) :
    List String :=
  if recipeId ∈ m.map (·.1) then
    let sorted := insSortBy (fun kv => kv.2) (lookupD m recipeId [])
    ((sorted.drop 1).take n).map (·.1)
  else []

/-- `get_personalized_recommendations(user_id, n=5)` (lines 122–155):
item-based collaborative filtering over the user's rated recipes. -/
noncomputable def getPersonalizedRecommendations (up : UserPrefs) (fm : FeatMap)
    (m : SimMatrix) (userId : String) (n : Nat := 5) : List String :=
  if userId ∈ up.map (·.1) then
    let userRatings := lookupD up userId []
    let predicted : List (String × ℝ) :=
      (fm.map (·.1)).foldl
        (fun acc recipeId =>
          if recipeId ∈ userRatings.map (·.1) then acc
          else
            let nd : ℝ × ℝ :=
              userRatings.foldl
                (fun nd rr =>
                  if rr.1 ∈ m.map (·.1) ∧ recipeId ∈ (lookupD m rr.1 []).map (·.1) then
                    let sim := simVal m rr.1 recipeId
                    (nd.1 + sim * (rr.2 : ℝ), nd.2 + |sim|)
                  else nd)
                (0, 0)
            if 0 < nd.2 then acc ++ [(recipeId, nd.1 / nd.2)] else acc)
        []
    ((insSortBy (fun kv => kv.2) predicted).take n).map (·.1)
  else []

/-! ## Statement helpers -/

/-- The Relaxation Priority Order restricted to the keys present in a
preference map (the spec's order invariant refers to this list). -/
def restrictedOrder (p : Prefs) : List String :=
  relaxationOrder.filter (fun k => decide (k ∈ prefKeys p))

/-- A non-empty catalog recipe that satisfies both preferences of the C1
failing input: a dessert without nuts. -/
def cakeRecipe : Recipe :=
  { RecipeName := some "Chocolate Cake", Description := some "A rich dessert",
    Cuisine := some "French", TotalTimeInMins := some 60,
    ingredients := ["flour", "sugar", "cocoa"] }

/-! ## Claims -/

/-- **C1** (code bug, failing input): for the preference map
`{course: "dessert", exclude_ingredient: "nuts"}` over a non-empty
catalog whose single recipe satisfies both preferences,
`search_with_fallback` returns an *empty* result list: building the
exact query executes `del query["$or"]` on the freshly rebuilt
`{"$and": …}` dict, raising a `KeyError` that lands in the exception
fallback, which filters the empty built-in seed set.  The claims that a
non-empty preference map yields non-empty results over a non-empty
catalog, and that the store-failure fallback filters a (useful) seed
set, both fail here. -/
theorem claimC1_code_bug_eval :
    buildOptimizedQuery [("course", "dessert"), ("exclude_ingredient", "nuts")]
        = .error .keyError ∧
    searchWithFallback (.avail [cakeRecipe] false)
        [("course", "dessert"), ("exclude_ingredient", "nuts")]
        = .ok ⟨[], ["course", "exclude_ingredient"]⟩ ∧
    matchLeaf cakeRecipe (.descriptionRegex "dessert") = true ∧
    matchLeaf cakeRecipe (.ingredientsNotRegex "nuts") = true ∧
    ([cakeRecipe] : List Recipe) ≠ [] := by
  refine ⟨rfl, rfl, rfl, rfl, by simp⟩

/-- **C2** (counterexample): for the preference map inserted as
`{cuisine: "x", time: "quick"}` over an available store with an empty
catalog, the last-resort path reports `relaxed = ["cuisine", "time"]` —
the map's own key order — which is *not* a prefix of the Relaxation
Priority Order restricted to the present keys (`["time", "cuisine"]`). -/
theorem claimC2_counterexample :
    searchWithFallback (.avail [] false) [("cuisine", "x"), ("time", "quick")]
        = .ok ⟨[], ["cuisine", "time"]⟩ ∧
    restrictedOrder [("cuisine", "x"), ("time", "quick")] = ["time", "cuisine"] ∧
    ¬ (["cuisine", "time"] <+:
        restrictedOrder [("cuisine", "x"), ("time", "quick")]) := by
  refine ⟨rfl, rfl, ?_⟩
  rintro ⟨t, ht⟩
  simp [restrictedOrder, relaxationOrder, prefKeys] at ht

/-- **C5** (counterexample): in `build_optimized_query` — the Predicate
Builder used by the Relaxation Search — the time text `"simple"` yields
*no* condition (only the substrings `quick`/`fast`/`easy` are checked),
and the bare numeric pattern `"15 minutes"` also yields no condition
(only text containing `under`/`less than` is parsed); both contradict
the claimed `total time < 30` / `< 15` conditions. -/
theorem claimC5_counterexample :
    buildOptimizedQuery [("time", "simple")] = .ok ({} : Query) ∧
    buildOptimizedQuery [("time", "15 minutes")] = .ok ({} : Query) := by
  exact ⟨rfl, rfl⟩

/-- **C5** (amended): the claimed mapping — literal tokens
`quick`/`fast`/`easy`/`simple` to `total time < 30`, `"N minutes"` to
`< N`, unparseable text to no condition — holds for the entity-based
builder in `ActionGetRecipes.run`; in `build_optimized_query` the
substrings `quick`/`fast`/`easy` give `< 30`, only `under N`/`less than
N` text gives `< N`, and `simple`, bare `"N minutes"` and unparseable
text give no condition. -/
theorem claimC5_amended :
    actionsTimeConditions ["quick"] = [.totalTimeLt 30] ∧
    actionsTimeConditions ["fast"] = [.totalTimeLt 30] ∧
    actionsTimeConditions ["easy"] = [.totalTimeLt 30] ∧
    actionsTimeConditions ["simple"] = [.totalTimeLt 30] ∧
    actionsTimeConditions ["15 minutes"] = [.totalTimeLt 15] ∧
    actionsTimeConditions ["30-minute"] = [.totalTimeLt 30] ∧
    actionsTimeConditions ["a little while"] = [] ∧
    actionsTimeConditions ["quickly"] = [] ∧
    buildOptimizedQuery [("time", "quick")] = .ok { TotalTimeInMins := some 30 } ∧
    buildOptimizedQuery [("time", "fast")] = .ok { TotalTimeInMins := some 30 } ∧
    buildOptimizedQuery [("time", "easy")] = .ok { TotalTimeInMins := some 30 } ∧
    buildOptimizedQuery [("time", "under 20 minutes")]
        = .ok { TotalTimeInMins := some 20 } ∧
    buildOptimizedQuery [("time", "less than 45 minutes")]
        = .ok { TotalTimeInMins := some 45 } ∧
    buildOptimizedQuery [("time", "a little while")] = .ok ({} : Query) := by
  refine ⟨rfl, rfl, rfl, rfl, rfl, rfl, rfl, rfl, rfl, rfl, rfl, rfl, rfl, rfl⟩

/-! ## Transfer lemmas: projecting a sorted entry list back to recipes -/

theorem insSortBy_map_perm {α ε β : Type} [LinearOrder β] (key : ε → β) (proj : ε → α)
    (entries : List ε) :
    List.Perm ((insSortBy key entries).map proj) (entries.map proj) :=
  (insSortBy_perm key entries).map proj

theorem insSortBy_map_pairwise {α ε β : Type} [LinearOrder β] (key : ε → β) (proj : ε → α)
    (kf : α → β) (entries : List ε) (hk : ∀ e ∈ entries, key e = kf (proj e)) :
    ((insSortBy key entries).map proj).Pairwise (fun a b => kf b ≤ kf a) := by
  refine List.pairwise_map.mpr ?_
  refine (insSortBy_sorted key entries).imp_of_mem ?_
  intro e f he hf hef
  have he' : e ∈ entries := ((insSortBy_perm key entries).mem_iff).mp he
  have hf' : f ∈ entries := ((insSortBy_perm key entries).mem_iff).mp hf
  rw [← hk e he', ← hk f hf']
  exact hef

theorem insSortBy_map_filter {α ε β : Type} [LinearOrder β] (key : ε → β) (proj : ε → α)
    (kf : α → β) (entries : List ε) (hk : ∀ e ∈ entries, key e = kf (proj e)) (q : β) :
    ((insSortBy key entries).map proj).filter (fun a => kf a = q)
      = (entries.map proj).filter (fun a => kf a = q) := by
  rw [List.filter_map, List.filter_map]
  have h1 : (insSortBy key entries).filter ((fun a => decide (kf a = q)) ∘ proj)
      = (insSortBy key entries).filter (fun e => key e = q) := by
    refine List.filter_congr ?_
    intro e he
    have he' : e ∈ entries := ((insSortBy_perm key entries).mem_iff).mp he
    simp [Function.comp, hk e he']
  have h2 : entries.filter (fun e => key e = q)
      = entries.filter ((fun a => decide (kf a = q)) ∘ proj) := by
    refine List.filter_congr ?_
    intro e he
    simp [Function.comp, hk e he]
  rw [h1, insSortBy_filter, h2]

/-! ## C4: pantry ranking -/

theorem pantryEntries_eq (recipes : List Recipe) (available : List String) (minMatch : ℚ) :
    pantryEntries recipes available minMatch =
      (recipes.filter (fun r => decide (minMatch ≤ matchFraction available r))).map
        (fun r => { recipe := r, matchPercentage := matchFraction available r,
                    missingIngredients := missingCount available r }) := by
  induction recipes with
  | nil => rfl
  | cons r rest ih =>
    by_cases h : minMatch ≤ matchFraction available r <;>
      simp [pantryEntries, List.filterMap_cons, List.filter_cons, h,
        ← ih, pantryEntries]

/-- Evaluation helper: the match fraction as a quotient of the covered
count and the ingredient count. -/
theorem matchFraction_eval (avail : List String) (r : Recipe) (c n : ℕ)
    (hc : coveredCount (avail.map (fun i => stripStr (lowerStr i)))
        (r.ingredients.map lowerStr) = c)
    (hn : (r.ingredients.map lowerStr).length = n) (hpos : 0 < n) :
    matchFraction avail r = (c : ℚ) / (n : ℚ) := by
  have hne : r.ingredients.map lowerStr ≠ [] := by
    intro h0
    rw [h0] at hn
    simp at hn
    omega
  have hemp : (r.ingredients.map lowerStr).isEmpty = false := by
    simpa [List.isEmpty_iff] using hne
  simp only [matchFraction, hemp, Bool.false_eq_true, if_false, hc, hn]

/-- The two pantry recipes of the C4 counterexample: equal match
fraction `1/2` for the pantry `["a", "b"]`, but `pantryR1` misses two
ingredients and `pantryR2` only one. -/
def pantryR1 : Recipe := { ingredients := ["a", "b", "x", "y"] }

def pantryR2 : Recipe := { ingredients := ["a", "x"] }

/-- **C4** (counterexample): with pantry `["a", "b"]` and threshold
`1/2`, both recipes qualify with match fraction `1/2`, and the matcher
returns them in catalog order `[pantryR1, pantryR2]` even though
`pantryR1` has *more* missing ingredients — the sort key is the match
percentage alone, so the claimed ascending-missing-count tie-break is
violated. -/
theorem claimC4_counterexample :
    filterByAvailableIngredients [pantryR1, pantryR2] ["a", "b"] (1/2)
        = [pantryR1, pantryR2] ∧
    matchFraction ["a", "b"] pantryR1 = matchFraction ["a", "b"] pantryR2 ∧
    missingCount ["a", "b"] pantryR2 < missingCount ["a", "b"] pantryR1 := by
  have f1 : matchFraction ["a", "b"] pantryR1 = 1/2 := by
    rw [matchFraction_eval ["a", "b"] pantryR1 2 4 (by decide) (by decide) (by decide)]
    norm_num
  have f2 : matchFraction ["a", "b"] pantryR2 = 1/2 := by
    rw [matchFraction_eval ["a", "b"] pantryR2 1 2 (by decide) (by decide) (by decide)]
    norm_num
  refine ⟨?_, by rw [f1, f2], by decide⟩
  unfold filterByAvailableIngredients
  rw [pantryEntries_eq]
  have hfil : ([pantryR1, pantryR2].filter
      (fun r => decide ((1:ℚ)/2 ≤ matchFraction ["a", "b"] r))) = [pantryR1, pantryR2] := by
    simp [List.filter_cons, f1, f2]
  rw [hfil]
  simp only [List.map_cons, List.map_nil, insSortBy, List.foldl, insDesc, f1, f2]
  norm_num

/-- **C4** (amended): `match_pantry` returns exactly the recipes whose
match fraction meets the threshold, sorted by descending match fraction;
recipes of *equal* match fraction keep their relative catalog order
(stable sort) — the missing-ingredient count is reported but is not a
tie-break key. -/
theorem claimC4_amended (recipes : List Recipe) (available : List String) (minMatch : ℚ) :
    List.Perm (filterByAvailableIngredients recipes available minMatch)
      (recipes.filter (fun r => decide (minMatch ≤ matchFraction available r))) ∧
    (filterByAvailableIngredients recipes available minMatch).Pairwise
      (fun a b => matchFraction available b ≤ matchFraction available a) ∧
    ∀ q : ℚ,
      (filterByAvailableIngredients recipes available minMatch).filter
          (fun r => matchFraction available r = q)
        = (recipes.filter (fun r => decide (minMatch ≤ matchFraction available r))).filter
            (fun r => matchFraction available r = q) := by
  have hk : ∀ e ∈ pantryEntries recipes available minMatch,
      e.matchPercentage = matchFraction available e.recipe := by
    intro e he
    rw [pantryEntries_eq] at he
    obtain ⟨r, _, rfl⟩ := List.mem_map.mp he
    rfl
  have hmapproj : (pantryEntries recipes available minMatch).map (·.recipe)
      = recipes.filter (fun r => decide (minMatch ≤ matchFraction available r)) := by
    rw [pantryEntries_eq, List.map_map]
    exact List.map_id' _
  refine ⟨?_, ?_, ?_⟩
  · have := insSortBy_map_perm (fun e : PantryEntry => e.matchPercentage) (·.recipe)
      (pantryEntries recipes available minMatch)
    rw [hmapproj] at this
    exact this
  · exact insSortBy_map_pairwise _ _ _ _ hk
  · intro q
    have := insSortBy_map_filter (fun e : PantryEntry => e.matchPercentage) (·.recipe)
      (matchFraction available) (pantryEntries recipes available minMatch) hk q
    rw [hmapproj] at this
    exact this

/-! ## C3: weighted ranking -/

theorem scoredEntries_map_recipe (p : Prefs) (w : List (String × ℚ)) (pool : List Recipe) :
    (scoredEntries p w pool).map (·.recipe) = pool := by
  rw [scoredEntries, List.map_map]
  exact List.map_id' _

theorem scoredEntries_score (p : Prefs) (w : List (String × ℚ)) (pool : List Recipe) :
    ∀ e ∈ scoredEntries p w pool, e.score = scoreOf p w e.recipe := by
  intro e he
  obtain ⟨r, _, rfl⟩ := List.mem_map.mp he
  rfl

/-- **C3**: over an available, non-failing store, `rank()` returns
exactly the hard-filtered (diet + exclude_ingredient) candidate pool —
no candidate is dropped for a soft constraint — capped at the page size
10, as a prefix of a full ranking that is a permutation of the pool,
sorted by descending score with equal scores keeping catalog order
(stable sort), and with an empty `relaxed` list. -/
theorem claimC3 (catalog : List Recipe) (p : Prefs) (wopt : Option (List (String × ℚ))) :
    ∃ res : RankResult,
      searchWithWeightedScoring (.avail catalog false) p wopt = .ok (.inl res) ∧
      res.relaxed = [] ∧
      res.results.length
        = min 10 (catalog.filter (matchQuery (hardFilterQuery p))).length ∧
      (∀ r ∈ res.results, r ∈ catalog.filter (matchQuery (hardFilterQuery p))) ∧
      ∃ full : List Recipe,
        res.results = full.take 10 ∧
        List.Perm full (catalog.filter (matchQuery (hardFilterQuery p))) ∧
        full.Pairwise (fun a b =>
          scoreOf p (wopt.getD defaultWeights) b ≤ scoreOf p (wopt.getD defaultWeights) a) ∧
        ∀ q : ℚ,
          full.filter (fun r => scoreOf p (wopt.getD defaultWeights) r = q)
            = (catalog.filter (matchQuery (hardFilterQuery p))).filter
                (fun r => scoreOf p (wopt.getD defaultWeights) r = q) := by
  classical
  set weights := wopt.getD defaultWeights with hw
  set pool := catalog.filter (matchQuery (hardFilterQuery p)) with hpool
  set entries := scoredEntries p weights pool with hentries
  set sorted := insSortBy (fun e : ScoredEntry => e.score) entries with hsorted
  set full := sorted.map (·.recipe) with hfull
  have hk : ∀ e ∈ entries, e.score = scoreOf p weights e.recipe :=
    scoredEntries_score p weights pool
  have hproj : entries.map (·.recipe) = pool := scoredEntries_map_recipe p weights pool
  have hperm : List.Perm full pool := by
    have := insSortBy_map_perm (fun e : ScoredEntry => e.score) (·.recipe) entries
    rwa [hproj] at this
  refine ⟨{ results := (sorted.take 10).map (·.recipe),
            detailedResults := sorted.take 10,
            totalMatches := entries.length,
            relaxed := [] }, ?_, rfl, ?_, ?_, full, ?_, hperm, ?_, ?_⟩
  · simp [searchWithWeightedScoring, findAll, ← hw, ← hpool, ← hentries, ← hsorted]
  · have hlen : sorted.length = pool.length := by
      have h := hperm.length_eq
      simpa [hfull] using h
    simp [List.length_take, hlen]
  · intro r hr
    have hr2 : r ∈ (sorted.map (·.recipe)).take 10 := by
      rw [← List.map_take]
      exact hr
    have hr3 : r ∈ List.take 10 full := by
      rw [hfull]
      exact hr2
    exact hperm.mem_iff.mp (List.mem_of_mem_take hr3)
  · rw [List.map_take, hfull]
  · exact insSortBy_map_pairwise _ _ _ _ hk
  · intro q
    have := insSortBy_map_filter (fun e : ScoredEntry => e.score) (·.recipe)
      (scoreOf p weights) entries hk q
    rwa [hproj] at this

/-! ## C8: pantry monotonicity -/

/-- **C8**: enlarging the pantry never decreases a recipe's match
fraction, so a qualifying recipe keeps qualifying for every pantry
superset. -/
theorem claimC8 (r : Recipe) (p p' : List String) (hsub : ∀ x ∈ p, x ∈ p') (minM : ℚ) :
    matchFraction p r ≤ matchFraction p' r ∧
    (minM ≤ matchFraction p r → minM ≤ matchFraction p' r) := by
  have hcov : coveredCount (p.map (fun i => stripStr (lowerStr i))) (r.ingredients.map lowerStr)
      ≤ coveredCount (p'.map (fun i => stripStr (lowerStr i))) (r.ingredients.map lowerStr) := by
    refine List.countP_mono_left ?_
    intro ing _ hany
    rw [List.any_eq_true] at hany ⊢
    obtain ⟨av, hav, hcond⟩ := hany
    obtain ⟨x, hx, rfl⟩ := List.mem_map.mp hav
    exact ⟨_, List.mem_map.mpr ⟨x, hsub x hx, rfl⟩, hcond⟩
  have hmain : matchFraction p r ≤ matchFraction p' r := by
    unfold matchFraction
    by_cases hempty : (r.ingredients.map lowerStr).isEmpty
    · simp [hempty]
    · have hpos : (0 : ℚ) < ((r.ingredients.map lowerStr).length : ℚ) := by
        have : r.ingredients.map lowerStr ≠ [] := by
          simpa [List.isEmpty_iff] using hempty
        have := List.length_pos.mpr this
        exact_mod_cast this
      simp only [hempty, if_false]
      exact (div_le_div_iff_of_pos_right hpos).mpr (by exact_mod_cast hcov)
  exact ⟨hmain, fun h => h.trans hmain⟩

/-- Witness for C8: a concrete pantry extension evaluated on `pantryR1`. -/
theorem claimC8_witness :
    matchFraction ["a"] pantryR1 ≤ matchFraction ["a", "b"] pantryR1 ∧
    (6/10 ≤ matchFraction ["a"] pantryR1 → 6/10 ≤ matchFraction ["a", "b"] pantryR1) :=
  claimC8 pantryR1 ["a"] ["a", "b"] (by decide) (6/10)

/-! ## C9: degenerate divisions -/

/-- A recipe with an empty ingredient list. -/
def emptyIngredientsRecipe : Recipe := { RecipeName := some "Mystery Dish" }

/-- **C9** (counterexample): a zero-ingredient recipe is assigned match
fraction `0.0`, but it *can* qualify: with a minimum threshold of `0`
the matcher returns it, contradicting the claim that such a recipe
"never qualifies". -/
theorem claimC9_counterexample :
    matchFraction ["water"] emptyIngredientsRecipe = 0 ∧
    filterByAvailableIngredients [emptyIngredientsRecipe] ["water"] 0
      = [emptyIngredientsRecipe] := by
  refine ⟨rfl, by decide⟩

/-- **C9** (amended): degenerate divisions are guarded and never raise —
a zero-ingredient recipe gets match fraction `0.0` (and hence never
qualifies for any *positive* threshold, in particular the default 0.6),
and cosine similarity against a zero-norm feature vector is `0.0` on
either side; the division branch is unreachable in both cases. -/
theorem claimC9_amended :
    (∀ (recipes : List Recipe) (available : List String) (minM : ℚ) (r : Recipe),
      r.ingredients = [] →
        matchFraction available r = 0 ∧
        (0 < minM → r ∉ filterByAvailableIngredients recipes available minM)) ∧
    (∀ v w : List ℚ, normR v = 0 → cosineSim v w = 0 ∧ cosineSim w v = 0) := by
  constructor
  · intro recipes available minM r hempty
    have hfrac : matchFraction available r = 0 := by
      simp [matchFraction, hempty]
    refine ⟨hfrac, ?_⟩
    intro hpos hmem
    unfold filterByAvailableIngredients at hmem
    obtain ⟨e, he, her⟩ := List.mem_map.mp hmem
    have he' : e ∈ pantryEntries recipes available minM :=
      ((insSortBy_perm _ _).mem_iff).mp he
    rw [pantryEntries_eq] at he'
    obtain ⟨r', hr', hmk⟩ := List.mem_map.mp he'
    have hrr : r' = r := by rw [← her, ← hmk]
    have hle : minM ≤ matchFraction available r' := by
      have := (List.mem_filter.mp hr').2
      simpa using this
    rw [hrr, hfrac] at hle
    exact absurd hle (not_le.mpr hpos)
  · intro v w h
    constructor
    · simp [cosineSim, h]
    · simp [cosineSim, h]

/-- Witness for C9 (amended): the degenerate inputs evaluated — the
empty-ingredient recipe at the default threshold, and a zero feature
vector. -/
theorem claimC9_witness :
    matchFraction ["water"] emptyIngredientsRecipe = 0 ∧
    emptyIngredientsRecipe ∉
      filterByAvailableIngredients [emptyIngredientsRecipe] ["water"] (6/10) ∧
    cosineSim [0] [1] = 0 := by
  have h1 := claimC9_amended.1 [emptyIngredientsRecipe] ["water"] (6/10)
    emptyIngredientsRecipe rfl
  have h2 := claimC9_amended.2 [0] [1] (by simp [normR, dotQ])
  exact ⟨h1.1, h1.2 (by norm_num), h2.1⟩

/-! ## C6: cosine-similarity algebra -/

theorem dotQ_comm (v w : List ℚ) : dotQ v w = dotQ w v := by
  unfold dotQ
  rw [List.zipWith_comm_of_comm _ mul_comm]

theorem dotQ_nonneg {v w : List ℚ} (hv : ∀ x ∈ v, 0 ≤ x) (hw : ∀ x ∈ w, 0 ≤ x) :
    0 ≤ dotQ v w := by
  induction v generalizing w with
  | nil => simp [dotQ]
  | cons a v' ih =>
    cases w with
    | nil => simp [dotQ]
    | cons b w' =>
      have h1 : 0 ≤ a * b :=
        mul_nonneg (hv a (by simp)) (hw b (by simp))
      have h2 : 0 ≤ dotQ v' w' :=
        ih (fun x hx => hv x (by simp [hx])) (fun x hx => hw x (by simp [hx]))
      simpa [dotQ] using add_nonneg h1 h2

theorem dotQ_self_nonneg (v : List ℚ) : 0 ≤ dotQ v v := by
  induction v with
  | nil => simp [dotQ]
  | cons a v' ih => simpa [dotQ] using add_nonneg (mul_self_nonneg a) ih

theorem dotQ_eq_sum (v w : List ℚ) :
    dotQ v w = ∑ i ∈ Finset.range (min v.length w.length), v.getD i 0 * w.getD i 0 := by
  induction v generalizing w with
  | nil => simp [dotQ]
  | cons a v' ih =>
    cases w with
    | nil => simp [dotQ]
    | cons b w' =>
      have hmin : min (a :: v').length (b :: w').length
          = min v'.length w'.length + 1 := by
        simp [Nat.succ_min_succ]
      rw [hmin, Finset.sum_range_succ']
      simp only [List.getD_cons_succ, List.getD_cons_zero]
      rw [← ih w']
      simp [dotQ, add_comm]

/-- Cauchy–Schwarz for the list dot product. -/
theorem dotQ_sq_le (v w : List ℚ) : (dotQ v w) ^ 2 ≤ dotQ v v * dotQ w w := by
  rw [dotQ_eq_sum v w, dotQ_eq_sum v v, dotQ_eq_sum w w]
  have hcs := Finset.sum_mul_sq_le_sq_mul_sq (Finset.range (min v.length w.length))
    (fun i => v.getD i 0) (fun i => w.getD i 0)
  refine hcs.trans ?_
  have hvsub : Finset.range (min v.length w.length) ⊆ Finset.range (min v.length v.length) := by
    refine Finset.range_subset.mpr ?_
    omega
  have hwsub : Finset.range (min v.length w.length) ⊆ Finset.range (min w.length w.length) := by
    refine Finset.range_subset.mpr ?_
    omega
  have h1 : ∑ i ∈ Finset.range (min v.length w.length), (v.getD i 0) ^ 2
      ≤ ∑ i ∈ Finset.range (min v.length v.length), v.getD i 0 * v.getD i 0 := by
    refine (Finset.sum_le_sum_of_subset_of_nonneg hvsub ?_).trans ?_
    · intro i _ _
      positivity
    · refine le_of_eq (Finset.sum_congr rfl ?_)
      intro i _
      ring
  have h2 : ∑ i ∈ Finset.range (min v.length w.length), (w.getD i 0) ^ 2
      ≤ ∑ i ∈ Finset.range (min w.length w.length), w.getD i 0 * w.getD i 0 := by
    refine (Finset.sum_le_sum_of_subset_of_nonneg hwsub ?_).trans ?_
    · intro i _ _
      positivity
    · refine le_of_eq (Finset.sum_congr rfl ?_)
      intro i _
      ring
  have hnn1 : (0:ℚ) ≤ ∑ i ∈ Finset.range (min v.length w.length), (v.getD i 0) ^ 2 :=
    Finset.sum_nonneg (fun i _ => sq_nonneg _)
  have hnn2 : (0:ℚ) ≤ ∑ i ∈ Finset.range (min w.length w.length), w.getD i 0 * w.getD i 0 := by
    refine Finset.sum_nonneg ?_
    intro i _
    exact mul_self_nonneg _
  exact mul_le_mul h1 h2 (Finset.sum_nonneg (fun i _ => sq_nonneg _)) (hnn1.trans h1)

theorem cosineSim_comm (v w : List ℚ) : cosineSim v w = cosineSim w v := by
  unfold cosineSim
  have hdot : dotQ v w = dotQ w v := dotQ_comm v w
  by_cases h : normR v = 0 ∨ normR w = 0
  · rw [if_pos h, if_pos h.symm]
  · rw [if_neg h, if_neg (fun h' => h h'.symm), hdot, mul_comm]

theorem cosineSim_mem_unit (v w : List ℚ) (hv : ∀ x ∈ v, 0 ≤ x) (hw : ∀ x ∈ w, 0 ≤ x) :
    0 ≤ cosineSim v w ∧ cosineSim v w ≤ 1 := by
  unfold cosineSim
  by_cases h : normR v = 0 ∨ normR w = 0
  · rw [if_pos h]
    exact ⟨le_refl 0, zero_le_one⟩
  · rw [if_neg h]
    push_neg at h
    have hn1 : 0 < normR v := lt_of_le_of_ne (Real.sqrt_nonneg _) (Ne.symm h.1)
    have hn2 : 0 < normR w := lt_of_le_of_ne (Real.sqrt_nonneg _) (Ne.symm h.2)
    have hd : (0:ℝ) ≤ ((dotQ v w : ℚ) : ℝ) := by
      exact_mod_cast dotQ_nonneg hv hw
    have hA : (0:ℝ) ≤ ((dotQ v v : ℚ) : ℝ) := by
      exact_mod_cast dotQ_self_nonneg v
    constructor
    · exact div_nonneg hd (mul_nonneg hn1.le hn2.le)
    · rw [div_le_one (mul_pos hn1 hn2)]
      have hkey : ((dotQ v w : ℚ) : ℝ) ^ 2
          ≤ ((dotQ v v : ℚ) : ℝ) * ((dotQ w w : ℚ) : ℝ) := by
        exact_mod_cast dotQ_sq_le v w
      have hsq : ((dotQ v w : ℚ) : ℝ)
          = Real.sqrt (((dotQ v w : ℚ) : ℝ) ^ 2) := (Real.sqrt_sq hd).symm
      rw [hsq, normR, normR, ← Real.sqrt_mul hA]
      exact Real.sqrt_le_sqrt hkey

/-- First-match association lookup over a list tagged by its second
component, under distinct keys. -/
theorem lookupD_key_map {γ : Type} (g : Nat × String → γ) (d : γ) :
    ∀ (l : List (Nat × String)), (l.map (·.2)).Nodup →
      ∀ {i : Nat} {a : String}, (i, a) ∈ l →
        lookupD (l.map (fun q => (q.2, g q))) a d = g (i, a) := by
  intro l
  induction l with
  | nil => intro _ i a h; simp at h
  | cons jb t ih =>
    intro hnd i a hmem
    obtain ⟨j, b⟩ := jb
    have hnd2 : (b :: t.map (·.2)).Nodup := by simpa using hnd
    rcases List.pairwise_cons.mp hnd2 with ⟨hb, hnd'⟩
    by_cases hba : b = a
    · have heq : (i, a) = (j, b) := by
        rcases List.mem_cons.mp hmem with h | h
        · exact h
        · exact absurd hba (hb a (List.mem_map.mpr ⟨(i, a), h, rfl⟩))
      rw [heq]
      simp [lookupD, List.find?, hba]
    · have hmem' : (i, a) ∈ t := by
        rcases List.mem_cons.mp hmem with h | h
        · rw [Prod.mk.injEq] at h
          exact absurd h.2.symm hba
        · exact h
      have := ih hnd' hmem'
      simpa [lookupD, List.find?, hba] using this

/-- The computed similarity matrix, read back entrywise. -/
theorem simVal_compute (fm : FeatMap) (old : SimMatrix)
    (hnd : (fm.map (·.1)).Nodup) {i j : Nat} {a b : String}
    (hia : (fm.map (·.1)).get? i = some a) (hjb : (fm.map (·.1)).get? j = some b) :
    simVal (computeRecipeSimilarity fm old) a b
      = if i = j then (1 : ℝ)
        else cosineSim (featVector fm (featureNames fm) a)
          (featVector fm (featureNames fm) b) := by
  have hne : fm.isEmpty = false := by
    cases fm with
    | nil => simp at hia
    | cons x t => rfl
  set ids := fm.map (·.1) with hids
  have hkeys : (ids.enum.map (·.2)).Nodup := by
    have : ids.enum.map (·.2) = ids := List.enum_map_snd ids
    rw [this]
    exact hnd
  have hmema : (i, a) ∈ ids.enum := by
    rw [List.mk_mem_enum_iff_getElem?]
    rw [← List.get?_eq_getElem?]
    exact hia
  have hmemb : (j, b) ∈ ids.enum := by
    rw [List.mk_mem_enum_iff_getElem?]
    rw [← List.get?_eq_getElem?]
    exact hjb
  unfold simVal computeRecipeSimilarity
  rw [hne]
  simp only [Bool.false_eq_true, if_false, ← hids]
  rw [lookupD_key_map _ _ ids.enum hkeys hmema]
  rw [lookupD_key_map _ _ ids.enum hkeys hmemb]

/-- **C6**: on the similarity matrix computed from a feature table with
distinct recipe ids and non-negative feature weights (the Feature Vector
invariant), similarity is symmetric, lies in `[0, 1]`, and
self-similarity is exactly `1.0`. -/
theorem claimC6 (fm : FeatMap) (old : SimMatrix)
    (hnd : (fm.map (·.1)).Nodup)
    (hnn : ∀ kv ∈ fm, ∀ fv ∈ kv.2, 0 ≤ fv.2)
    (a b : String) (ha : a ∈ fm.map (·.1)) (hb : b ∈ fm.map (·.1)) :
    simVal (computeRecipeSimilarity fm old) a b
        = simVal (computeRecipeSimilarity fm old) b a ∧
    0 ≤ simVal (computeRecipeSimilarity fm old) a b ∧
    simVal (computeRecipeSimilarity fm old) a b ≤ 1 ∧
    simVal (computeRecipeSimilarity fm old) a a = 1 := by
  obtain ⟨i, hi⟩ := List.mem_iff_get?.mp ha
  obtain ⟨j, hj⟩ := List.mem_iff_get?.mp hb
  have hvecnn : ∀ id : String, ∀ x ∈ featVector fm (featureNames fm) id, 0 ≤ x := by
    intro id x hx
    obtain ⟨f, _, rfl⟩ := List.mem_map.mp hx
    have hfeat : ∀ fv ∈ lookupD fm id ([] : Features), 0 ≤ fv.2 := by
      intro fv hfv
      unfold lookupD at hfv
      cases hf2 : fm.find? (fun kv => kv.1 = id) with
      | none => rw [hf2] at hfv; simp at hfv
      | some kv =>
        rw [hf2] at hfv
        simp at hfv
        exact hnn kv (List.mem_of_find?_eq_some hf2) fv hfv
    set features := lookupD fm id ([] : Features) with hfs
    unfold lookupD
    cases hfind : features.find? (fun kv => kv.1 = f) with
    | none => simp
    | some fv => simpa using hfeat fv (List.mem_of_find?_eq_some hfind)
  have hab := simVal_compute fm old hnd hi hj
  have hba := simVal_compute fm old hnd hj hi
  have haa := simVal_compute fm old hnd hi hi
  refine ⟨?_, ?_, ?_, ?_⟩
  · rw [hab, hba]
    by_cases hij : i = j
    · rw [if_pos hij, if_pos hij.symm]
    · rw [if_neg hij, if_neg (fun h => hij h.symm),
        cosineSim_comm]
  · rw [hab]
    by_cases hij : i = j
    · rw [if_pos hij]; exact zero_le_one
    · rw [if_neg hij]
      exact (cosineSim_mem_unit _ _ (hvecnn a) (hvecnn b)).1
  · rw [hab]
    by_cases hij : i = j
    · rw [if_pos hij]
    · rw [if_neg hij]
      exact (cosineSim_mem_unit _ _ (hvecnn a) (hvecnn b)).2
  · rw [haa, if_pos rfl]

/-- Witness for C6: a concrete two-recipe feature table. -/
theorem claimC6_witness :
    simVal (computeRecipeSimilarity [("r1", [("a", 1)]), ("r2", [("b", 2)])] []) "r1" "r2"
        = simVal (computeRecipeSimilarity [("r1", [("a", 1)]), ("r2", [("b", 2)])] []) "r2" "r1" ∧
    0 ≤ simVal (computeRecipeSimilarity [("r1", [("a", 1)]), ("r2", [("b", 2)])] []) "r1" "r2" ∧
    simVal (computeRecipeSimilarity [("r1", [("a", 1)]), ("r2", [("b", 2)])] []) "r1" "r2" ≤ 1 ∧
    simVal (computeRecipeSimilarity [("r1", [("a", 1)]), ("r2", [("b", 2)])] []) "r1" "r1" = 1 :=
  claimC6 [("r1", [("a", 1)]), ("r2", [("b", 2)])] [] (by decide) (by decide)
    "r1" "r2" (by decide) (by decide)

/-! ## C2 (amended): the relaxation order invariant

Helper lemmas about preference maps, the trivial query, and the
relaxation loop, leading to the amended order invariant. -/

/-- The preference keys that `build_optimized_query` reads. -/
def buildKeys : List String :=
  ["diet", "cuisine", "course", "ingredient", "exclude_ingredient", "time"]

theorem truthy_mem_prefKeys {rp : Prefs} {k : String} (h : truthy rp k = true) :
    k ∈ prefKeys rp := by
  unfold truthy at h
  cases hf : getPref rp k with
  | none => rw [hf] at h; simp at h
  | some v =>
    unfold getPref at hf
    cases hfind : rp.find? (fun kv => kv.1 = k) with
    | none => rw [hfind] at hf; simp at hf
    | some kv =>
      have hkv : kv ∈ rp := List.mem_of_find?_eq_some hfind
      have hk : kv.1 = k := by simpa using List.find?_some hfind
      exact hk ▸ List.mem_map.mpr ⟨kv, hkv, rfl⟩

theorem mem_prefKeys_delKey (rp : Prefs) (c k : String) :
    k ∈ prefKeys (delKey rp c) ↔ (k ∈ prefKeys rp ∧ k ≠ c) := by
  simp only [prefKeys, delKey, List.mem_map, List.mem_filter]
  constructor
  · rintro ⟨kv, ⟨hkv, hne⟩, rfl⟩
    exact ⟨⟨kv, hkv, rfl⟩, by simpa using hne⟩
  · rintro ⟨⟨kv, hkv, rfl⟩, hne⟩
    exact ⟨kv, ⟨hkv, by simpa using hne⟩, rfl⟩

theorem getPref_delKey (rp : Prefs) {c k : String} (hne : k ≠ c) :
    getPref (delKey rp c) k = getPref rp k := by
  induction rp with
  | nil => rfl
  | cons kv t ih =>
    by_cases h1 : kv.1 = c
    · have h2 : ¬ kv.1 = k := fun h => hne (h.symm.trans h1)
      have e1 : delKey (kv :: t) c = delKey t c := by
        simp [delKey, List.filter_cons, h1]
      have e2 : getPref (kv :: t) k = getPref t k := by
        simp [getPref, List.find?_cons, h2]
      rw [e1, ih, e2]
    · have e1 : delKey (kv :: t) c = kv :: delKey t c := by
        simp [delKey, List.filter_cons, h1]
      by_cases h2 : kv.1 = k
      · rw [e1]
        simp [getPref, List.find?_cons, h2]
      · rw [e1]
        have e2 : getPref (kv :: delKey t c) k = getPref (delKey t c) k := by
          simp [getPref, List.find?_cons, h2]
        have e3 : getPref (kv :: t) k = getPref t k := by
          simp [getPref, List.find?_cons, h2]
        rw [e2, e3, ih]

theorem truthy_delKey (rp : Prefs) {c k : String} (hne : k ≠ c) :
    truthy (delKey rp c) k = truthy rp k := by
  rw [truthy, truthy, getPref_delKey rp hne]

/-- With no truthy build key, `build_optimized_query` produces the empty
query. -/
theorem build_trivial (rp : Prefs) (h : ∀ k ∈ buildKeys, truthy rp k = false) :
    buildOptimizedQuery rp = .ok {} := by
  have hd := h "diet" (by simp [buildKeys])
  have hc := h "cuisine" (by simp [buildKeys])
  have hco := h "course" (by simp [buildKeys])
  have hi := h "ingredient" (by simp [buildKeys])
  have he := h "exclude_ingredient" (by simp [buildKeys])
  have ht := h "time" (by simp [buildKeys])
  simp [buildOptimizedQuery, buildBase, buildExclude, buildTime,
    hd, hc, hco, hi, he, ht]

theorem matchQuery_default (r : Recipe) : matchQuery ({} : Query) r = true := rfl

theorem findLimited_ok (catalog : List Recipe) (q : Query) (lim : Nat) :
    findLimited catalog false q lim = .ok ((catalog.filter (matchQuery q)).take lim) := by
  simp [findLimited]

theorem findLimited_default (catalog : List Recipe) :
    findLimited catalog false {} 10 = .ok (catalog.take 10) := by
  rw [findLimited_ok]
  congr 1
  exact congrArg (List.take 10) (List.filter_eq_self.mpr (fun r _ => matchQuery_default r))

theorem take_ten_ne_nil {catalog : List Recipe} (h : catalog ≠ []) :
    catalog.take 10 ≠ [] := by
  cases catalog with
  | nil => exact absurd rfl h
  | cons a t => simp

/-- The specification of the relaxation loop: a `return` from inside the
loop carries a prefix of the restricted priority order, and a
fall-through/`break` does too, having relaxed at least `maxRelax` keys
while a truthy build key of the original map is still unrelaxed (when
the catalog is non-empty). -/
theorem relaxLoop_spec (catalog : List Recipe) (maxRelax : Nat) (p0 : Prefs) :
    ∀ (ord : List String) (rp : Prefs) (relaxed : List String)
      (out : SearchResult ⊕ List String),
      ord.Nodup →
      (∀ k, k ∈ prefKeys rp ↔ k ∈ prefKeys p0 ∧ k ∉ relaxed) →
      relaxed ++ ord.filter (fun k => decide (k ∈ prefKeys rp)) = restrictedOrder p0 →
      (∀ k ∈ buildKeys, truthy rp k = true → k ∈ ord) →
      (catalog ≠ [] → ∃ k ∈ buildKeys, truthy rp k = true) →
      relaxLoop catalog false maxRelax ord rp relaxed = .ok out →
      ((∀ res, out = .inl res → res.relaxed <+: restrictedOrder p0 ∧ res.results ≠ []) ∧
       (∀ rl, out = .inr rl → rl <+: restrictedOrder p0 ∧
         (catalog ≠ [] → maxRelax ≤ rl.length ∧ ∃ k, k ∈ prefKeys p0 ∧ k ∉ rl))) := by
  intro ord
  induction ord with
  | nil =>
    intro rp relaxed out _ hkeys hconcat hbuild hpre heq
    have hout : out = .inr relaxed := by
      simpa [relaxLoop] using heq.symm
    subst hout
    constructor
    · intro res h
      simp at h
    · intro rl hrl
      cases hrl
      have hrel : relaxed = restrictedOrder p0 := by simpa using hconcat
      refine ⟨hrel ▸ List.prefix_refl _, ?_⟩
      intro hcat
      obtain ⟨k, hkb, hkt⟩ := hpre hcat
      exact absurd (hbuild k hkb hkt) (by simp)
  | cons c rest ih =>
    intro rp relaxed out hnod hkeys hconcat hbuild hpre heq
    rcases List.pairwise_cons.mp hnod with ⟨hcrest, hnod'⟩
    by_cases hmem : c ∈ prefKeys rp
    · -- present: relax c
      have hkeys' : ∀ k, k ∈ prefKeys (delKey rp c) ↔
          k ∈ prefKeys p0 ∧ k ∉ relaxed ++ [c] := by
        intro k
        rw [mem_prefKeys_delKey, hkeys k]
        simp only [List.mem_append, List.mem_singleton, not_or]
        tauto
      have hfilter' : rest.filter (fun k => decide (k ∈ prefKeys (delKey rp c)))
          = rest.filter (fun k => decide (k ∈ prefKeys rp)) := by
        refine List.filter_congr ?_
        intro k hk
        have hkc : k ≠ c := (hcrest k hk).symm
        simp only [decide_eq_decide]
        rw [mem_prefKeys_delKey]
        constructor
        · exact fun h => h.1
        · exact fun h => ⟨h, hkc⟩
      have hconcat' : (relaxed ++ [c]) ++
          rest.filter (fun k => decide (k ∈ prefKeys (delKey rp c)))
          = restrictedOrder p0 := by
        rw [hfilter']
        rw [← hconcat]
        simp [List.filter_cons, hmem]
      have hbuild' : ∀ k ∈ buildKeys, truthy (delKey rp c) k = true → k ∈ rest := by
        intro k hkb hkt
        have hkmem : k ∈ prefKeys (delKey rp c) := truthy_mem_prefKeys hkt
        have hkc : k ≠ c := ((mem_prefKeys_delKey rp c k).mp hkmem).2
        have hkt0 : truthy rp k = true := by
          rw [← truthy_delKey rp hkc]
          exact hkt
        rcases List.mem_cons.mp (hbuild k hkb hkt0) with h | h
        · exact absurd h hkc
        · exact h
      -- unfold one loop iteration
      rw [relaxLoop, if_pos hmem] at heq
      cases hq : buildOptimizedQuery (delKey rp c) with
      | error e =>
        rw [hq] at heq
        simp at heq
      | ok q =>
        rw [hq] at heq
        replace heq : (match findLimited catalog false q 10 with
            | Except.error e => (Except.error e : Except PyErr (SearchResult ⊕ List String))
            | Except.ok results =>
              if results ≠ [] then Except.ok (Sum.inl ⟨results, relaxed ++ [c]⟩)
              else if maxRelax ≤ (relaxed ++ [c]).length then
                Except.ok (Sum.inr (relaxed ++ [c]))
              else relaxLoop catalog false maxRelax rest (delKey rp c) (relaxed ++ [c]))
            = Except.ok out := heq
        rw [findLimited_ok] at heq
        replace heq : (if (catalog.filter (matchQuery q)).take 10 ≠ []
            then Except.ok (Sum.inl (SearchResult.mk
              ((catalog.filter (matchQuery q)).take 10) (relaxed ++ [c])))
            else if maxRelax ≤ (relaxed ++ [c]).length then
              Except.ok (Sum.inr (relaxed ++ [c]))
            else relaxLoop catalog false maxRelax rest (delKey rp c) (relaxed ++ [c]))
            = Except.ok out := heq
        by_cases hr0 : (catalog.filter (matchQuery q)).take 10 ≠ []
        · rw [if_pos hr0] at heq
          have hout : out = .inl ⟨(catalog.filter (matchQuery q)).take 10, relaxed ++ [c]⟩ := by
            simpa using heq.symm
          subst hout
          constructor
          · intro res hres'
            cases hres'
            exact ⟨⟨rest.filter (fun k => decide (k ∈ prefKeys (delKey rp c))), hconcat'⟩, hr0⟩
          · intro rl hrl
            simp at hrl
        · rw [if_neg hr0] at heq
          push_neg at hr0
          have hnontriv : catalog ≠ [] → ∃ k ∈ buildKeys, truthy (delKey rp c) k = true := by
            intro hcat
            by_contra hno
            push_neg at hno
            have hfalse : ∀ k ∈ buildKeys, truthy (delKey rp c) k = false := by
              intro k hk
              simpa using hno k hk
            have htriv := build_trivial (delKey rp c) hfalse
            rw [htriv] at hq
            have hq' : q = {} := by
              simpa using hq.symm
            rw [hq'] at hr0
            have : (catalog.filter (matchQuery ({} : Query))).take 10 = catalog.take 10 := by
              congr 1
              exact List.filter_eq_self.mpr (fun r _ => matchQuery_default r)
            rw [this] at hr0
            exact take_ten_ne_nil hcat hr0
          by_cases hbreak : maxRelax ≤ (relaxed ++ [c]).length
          · rw [if_pos hbreak] at heq
            have hout : out = .inr (relaxed ++ [c]) := by
              simpa using heq.symm
            subst hout
            constructor
            · intro res h
              simp at h
            · intro rl hrl
              cases hrl
              refine ⟨⟨rest.filter (fun k => decide (k ∈ prefKeys (delKey rp c))), hconcat'⟩, ?_⟩
              intro hcat
              refine ⟨hbreak, ?_⟩
              obtain ⟨k, hkb, hkt⟩ := hnontriv hcat
              have hkmem : k ∈ prefKeys (delKey rp c) := truthy_mem_prefKeys hkt
              have hk2 := (hkeys' k).mp hkmem
              exact ⟨k, hk2.1, hk2.2⟩
          · rw [if_neg hbreak] at heq
            exact ih (delKey rp c) (relaxed ++ [c]) out hnod' hkeys' hconcat' hbuild'
              hnontriv heq
    · -- absent: skip c
      have heq' : relaxLoop catalog false maxRelax rest rp relaxed = .ok out := by
        rw [relaxLoop, if_neg hmem] at heq
        exact heq
      have hconcat' : relaxed ++ rest.filter (fun k => decide (k ∈ prefKeys rp))
          = restrictedOrder p0 := by
        rw [← hconcat]
        simp [List.filter_cons, hmem]
      have hbuild' : ∀ k ∈ buildKeys, truthy rp k = true → k ∈ rest := by
        intro k hkb hkt
        rcases List.mem_cons.mp (hbuild k hkb hkt) with h | h
        · exact absurd (h ▸ truthy_mem_prefKeys hkt) hmem
        · exact h
      exact ih rp relaxed out hnod' hkeys hconcat' hbuild' hpre heq'

/-- The seed-set relaxation loop can never return from inside the loop:
the seed set is empty, so every filter result is empty. -/
theorem localRelaxLoop_no_inl (maxRelax : Nat) :
    ∀ (ord : List String) (rp : Prefs) (relaxed : List String),
      ∃ rl, localRelaxLoop maxRelax ord rp relaxed = .ok (.inr rl) := by
  intro ord
  induction ord with
  | nil => intro rp relaxed; exact ⟨relaxed, rfl⟩
  | cons c rest ih =>
    intro rp relaxed
    by_cases h : c ∈ prefKeys rp
    · by_cases hb : maxRelax ≤ (relaxed ++ [c]).length
      · refine ⟨relaxed ++ [c], ?_⟩
        rw [localRelaxLoop, if_pos h]
        show (if maxRelax ≤ (relaxed ++ [c]).length then
            (Except.ok (Sum.inr (relaxed ++ [c])) : Except PyErr (SearchResult ⊕ List String))
          else localRelaxLoop maxRelax rest (delKey rp c) (relaxed ++ [c]))
          = Except.ok (Sum.inr (relaxed ++ [c]))
        rw [if_pos hb]
      · obtain ⟨rl, hrl⟩ := ih (delKey rp c) (relaxed ++ [c])
        refine ⟨rl, ?_⟩
        rw [localRelaxLoop, if_pos h]
        show (if maxRelax ≤ (relaxed ++ [c]).length then
            (Except.ok (Sum.inr (relaxed ++ [c])) : Except PyErr (SearchResult ⊕ List String))
          else localRelaxLoop maxRelax rest (delKey rp c) (relaxed ++ [c]))
          = Except.ok (Sum.inr rl)
        rw [if_neg hb]
        exact hrl
    · obtain ⟨rl, hrl⟩ := ih rp relaxed
      refine ⟨rl, ?_⟩
      rw [localRelaxLoop, if_neg h]
      exact hrl

theorem searchInner_unavailable (p : Prefs) (maxRelax : Nat) :
    searchInner .unavailable p maxRelax = .ok ⟨[], prefKeys p⟩ := by
  obtain ⟨rl, hrl⟩ := localRelaxLoop_no_inl maxRelax relaxationOrder p []
  simp [searchInner, SAMPLE_RECIPES, filterRecipes, hrl]

theorem searchInner_failing (catalog : List Recipe) (p : Prefs) (maxRelax : Nat) :
    ∃ e, searchInner (.avail catalog true) p maxRelax = .error e := by
  cases hq : buildOptimizedQuery p with
  | error e => exact ⟨e, by simp [searchInner, hq]⟩
  | ok q => exact ⟨.storeFailure, by simp [searchInner, hq, findLimited]⟩

theorem lastResort_spec (catalog : List Recipe) (p : Prefs) (res : SearchResult)
    (hok : lastResort catalog false p = .ok res) :
    res = ⟨catalog.take 10, prefKeys p⟩ := by
  unfold lastResort at hok
  rw [findLimited_default] at hok
  simpa using hok.symm

/-- The possible successful outcomes of the post-loop diet-minimal /
last-resort code: either the diet-minimal results with the leftover keys
appended, or the unfiltered sample with every original key; in both
cases a non-empty result forces a non-empty catalog. -/
theorem dietMinimal_spec (catalog : List Recipe) (p : Prefs) (relaxed : List String)
    (res : SearchResult) (hok : dietMinimal catalog false p relaxed = .ok res)
    (hres : res.results ≠ []) :
    catalog ≠ [] ∧
    (res.relaxed = relaxed ++ (prefKeys p).filter
        (fun k => k != "diet" && !(relaxed.contains k))
      ∨ res.relaxed = prefKeys p) := by
  have hcat : ∀ r : SearchResult, r.results ≠ [] →
      (r.results = catalog.take 10 ∨
        ∃ q, r.results = (catalog.filter (matchQuery q)).take 10) → catalog ≠ [] := by
    intro r hr h
    rintro rfl
    rcases h with h | ⟨q, h⟩ <;> simp [h] at hr
  unfold dietMinimal at hok
  by_cases hdiet : "diet" ∈ prefKeys p
  · rw [if_pos hdiet] at hok
    cases hmq : buildOptimizedQuery [("diet", (getPref p "diet").getD "")] with
    | error e => rw [hmq] at hok; simp at hok
    | ok mq =>
      rw [hmq] at hok
      replace hok : (match findLimited catalog false mq 10 with
          | Except.error e => (Except.error e : Except PyErr SearchResult)
          | Except.ok mres =>
            if mres ≠ [] then
              Except.ok (SearchResult.mk mres (relaxed ++ (prefKeys p).filter
                (fun k => k != "diet" && !(relaxed.contains k))))
            else lastResort catalog false p) = Except.ok res := hok
      rw [findLimited_ok] at hok
      replace hok : (if (catalog.filter (matchQuery mq)).take 10 ≠ [] then
          Except.ok (SearchResult.mk ((catalog.filter (matchQuery mq)).take 10)
            (relaxed ++ (prefKeys p).filter
              (fun k => k != "diet" && !(relaxed.contains k))))
          else lastResort catalog false p) = Except.ok res := hok
      by_cases hm : (catalog.filter (matchQuery mq)).take 10 ≠ []
      · rw [if_pos hm] at hok
        have hr : res = SearchResult.mk ((catalog.filter (matchQuery mq)).take 10)
            (relaxed ++ (prefKeys p).filter
              (fun k => k != "diet" && !(relaxed.contains k))) := by
          simpa using hok.symm
        subst hr
        refine ⟨hcat _ hres (Or.inr ⟨mq, rfl⟩), Or.inl rfl⟩
      · rw [if_neg hm] at hok
        have hr := lastResort_spec catalog p res hok
        subst hr
        exact ⟨hcat _ hres (Or.inl rfl), Or.inr rfl⟩
  · rw [if_neg hdiet] at hok
    have hr := lastResort_spec catalog p res hok
    subst hr
    exact ⟨hcat _ hres (Or.inl rfl), Or.inr rfl⟩

/-- The order invariant for the store-backed search path. -/
theorem searchInner_relaxed_spec (catalog : List Recipe) (p : Prefs) (maxRelax : Nat)
    (res : SearchResult)
    (hok : searchInner (.avail catalog false) p maxRelax = .ok res)
    (hres : res.results ≠ []) (hlen : res.relaxed.length ≤ maxRelax) :
    res.relaxed <+: restrictedOrder p := by
  replace hok : (match buildOptimizedQuery p with
      | Except.error e => (Except.error e : Except PyErr SearchResult)
      | Except.ok q =>
        match findLimited catalog false q 10 with
        | Except.error e => Except.error e
        | Except.ok results =>
          if results ≠ [] then Except.ok (SearchResult.mk results [])
          else
            match relaxLoop catalog false maxRelax relaxationOrder p [] with
            | .error e => .error e
            | .ok (.inl r) => .ok r
            | .ok (.inr relaxed) => dietMinimal catalog false p relaxed)
      = Except.ok res := hok
  cases hq : buildOptimizedQuery p with
  | error e => rw [hq] at hok; simp at hok
  | ok q =>
    rw [hq] at hok
    replace hok : (match findLimited catalog false q 10 with
        | Except.error e => (Except.error e : Except PyErr SearchResult)
        | Except.ok results =>
          if results ≠ [] then Except.ok (SearchResult.mk results [])
          else
            match relaxLoop catalog false maxRelax relaxationOrder p [] with
            | .error e => .error e
            | .ok (.inl r) => .ok r
            | .ok (.inr relaxed) => dietMinimal catalog false p relaxed)
        = Except.ok res := hok
    rw [findLimited_ok] at hok
    replace hok : (if (catalog.filter (matchQuery q)).take 10 ≠ [] then
        Except.ok (SearchResult.mk ((catalog.filter (matchQuery q)).take 10) [])
        else
          match relaxLoop catalog false maxRelax relaxationOrder p [] with
          | .error e => .error e
          | .ok (.inl r) => .ok r
          | .ok (.inr relaxed) => dietMinimal catalog false p relaxed)
        = Except.ok res := hok
    by_cases hr0 : (catalog.filter (matchQuery q)).take 10 ≠ []
    · rw [if_pos hr0] at hok
      have hr : res = SearchResult.mk ((catalog.filter (matchQuery q)).take 10) [] := by
        simpa using hok.symm
      subst hr
      simp
    · rw [if_neg hr0] at hok
      push_neg at hr0
      -- preconditions of the loop lemma
      have hpre : catalog ≠ [] → ∃ k ∈ buildKeys, truthy p k = true := by
        intro hcat
        by_contra hno
        push_neg at hno
        have hfalse : ∀ k ∈ buildKeys, truthy p k = false := by
          intro k hk
          simpa using hno k hk
        have htriv := build_trivial p hfalse
        rw [htriv] at hq
        have hq' : q = {} := by simpa using hq.symm
        rw [hq'] at hr0
        have : (catalog.filter (matchQuery ({} : Query))).take 10 = catalog.take 10 := by
          congr 1
          exact List.filter_eq_self.mpr (fun r _ => matchQuery_default r)
        rw [this] at hr0
        exact take_ten_ne_nil hcat hr0
      cases hloop : relaxLoop catalog false maxRelax relaxationOrder p [] with
      | error e => rw [hloop] at hok; simp at hok
      | ok o =>
        rw [hloop] at hok
        have hspec := relaxLoop_spec catalog maxRelax p relaxationOrder p [] o
          (by decide)
          (by intro k; simp)
          (by simp [restrictedOrder])
          (by
            intro k hk _
            fin_cases hk <;> decide)
          hpre hloop
        cases o with
        | inl r =>
          have hr : res = r := by simpa using hok.symm
          subst hr
          exact (hspec.1 res rfl).1
        | inr rl =>
          replace hok : dietMinimal catalog false p rl = .ok res := hok
          obtain ⟨hrlpre, hrl_more⟩ := hspec.2 rl rfl
          obtain ⟨hcat, hout⟩ := dietMinimal_spec catalog p rl res hok hres
          obtain ⟨hmax, k, hkp, hkrl⟩ := hrl_more hcat
          have hrl_sub : rl ⊆ prefKeys p := by
            intro x hx
            have : x ∈ restrictedOrder p := hrlpre.subset hx
            unfold restrictedOrder at this
            simpa using (List.mem_filter.mp this).2
          have hrl_nd : rl.Nodup := by
            have hR : (restrictedOrder p).Nodup :=
              List.Nodup.filter _ (by decide : relaxationOrder.Nodup)
            exact List.Nodup.sublist hrlpre.sublist hR
          rcases hout with hout | hout
          · -- diet-minimal return: leftover keys must be empty
            by_cases hextras : (prefKeys p).filter
                (fun k => k != "diet" && !(rl.contains k)) = []
            · rw [hout, hextras]
              simpa using hrlpre
            · exfalso
              have hlen2 : res.relaxed.length = rl.length +
                  ((prefKeys p).filter (fun k => k != "diet" && !(rl.contains k))).length := by
                rw [hout]
                simp
              have hpos : 0 < ((prefKeys p).filter
                  (fun k => k != "diet" && !(rl.contains k))).length :=
                List.length_pos.mpr hextras
              omega
          · -- last resort: relaxed = all keys, too many of them
            exfalso
            have hsubp : (k :: rl) ⊆ prefKeys p := by
              intro x hx
              rcases List.mem_cons.mp hx with rfl | hx
              · exact hkp
              · exact hrl_sub hx
            have hndk : (k :: rl).Nodup := List.nodup_cons.mpr ⟨hkrl, hrl_nd⟩
            have hle : (k :: rl).length ≤ (prefKeys p).length :=
              (List.subperm_of_subset hndk hsubp).length_le
            rw [hout] at hlen
            simp at hle
            omega

/-- **C2** (amended): whenever `search_with_fallback` returns non-empty
results having relaxed at most `max_relaxations` keys, the relaxed list
is a prefix of the Relaxation Priority Order restricted to the keys of
the original map.  (The minimal-diet and last-resort fallbacks instead
report keys in the map's own order — see the counterexample.) -/
theorem claimC2_amended (st : Store) (p : Prefs) (maxRelax : Nat) (res : SearchResult)
    (hok : searchWithFallback st p maxRelax = .ok res)
    (hres : res.results ≠ [])
    (hlen : res.relaxed.length ≤ maxRelax) :
    res.relaxed <+: restrictedOrder p := by
  unfold searchWithFallback at hok
  cases hinner : searchInner st p maxRelax with
  | error e =>
    rw [hinner] at hok
    replace hok : (match filterRecipes SAMPLE_RECIPES p with
        | Except.error e => (Except.error e : Except PyErr SearchResult)
        | Except.ok results =>
          if results ≠ [] then Except.ok (SearchResult.mk results [])
          else Except.ok (SearchResult.mk (SAMPLE_RECIPES.take 5) (prefKeys p)))
        = Except.ok res := hok
    have hfil : filterRecipes SAMPLE_RECIPES p = .ok [] := rfl
    rw [hfil] at hok
    have hr : res = SearchResult.mk [] (prefKeys p) := by
      simpa [SAMPLE_RECIPES] using hok.symm
    rw [hr] at hres
    simp at hres
  | ok r =>
    rw [hinner] at hok
    have hr : res = r := by simpa using hok.symm
    subst hr
    cases st with
    | unavailable =>
      rw [searchInner_unavailable] at hinner
      have hres' : res = ⟨[], prefKeys p⟩ := by simpa using hinner.symm
      rw [hres'] at hres
      simp at hres
    | avail catalog failing =>
      cases failing with
      | true =>
        obtain ⟨e, he⟩ := searchInner_failing catalog p maxRelax
        rw [he] at hinner
        simp at hinner
      | false =>
        exact searchInner_relaxed_spec catalog p maxRelax res hinner hres hlen

/-- Witness for C2 (amended): an exact-match search over a one-recipe
catalog relaxes nothing, and the empty relaxed list is a prefix of the
restricted priority order. -/
theorem claimC2_witness :
    searchWithFallback (.avail [cakeRecipe] false) [("cuisine", "fren")] 3
      = .ok ⟨[cakeRecipe], []⟩ ∧
    ([] : List String) <+: restrictedOrder [("cuisine", "fren")] := by
  refine ⟨rfl, ?_⟩
  have h := claimC2_amended (.avail [cakeRecipe] false) [("cuisine", "fren")] 3
    ⟨[cakeRecipe], []⟩ rfl (by decide) (by decide)
  exact h

/-! ## C7: `get_similar` drops the first sorted entry, not the recipe
itself -/

/-- Two distinct recipes with identical (non-zero) feature vectors:
their mutual similarity is exactly 1.0, tying with self-similarity. -/
def tieFeatures : FeatMap := [("r1", [("a", 1)]), ("r2", [("a", 1)])]

theorem cosineSim_one_one : cosineSim [(1 : ℚ)] [(1 : ℚ)] = 1 := by
  have hdot : dotQ [(1 : ℚ)] [(1 : ℚ)] = 1 := by
    simp [dotQ]
  have hnorm : normR [(1 : ℚ)] = 1 := by
    rw [normR, hdot]
    simp
  rw [cosineSim, if_neg (by rw [hnorm]; norm_num)]
  rw [hdot, hnorm]
  norm_num

theorem tieFeatures_matrix : computeRecipeSimilarity tieFeatures []
    = [("r1", [("r1", (1 : ℝ)), ("r2", 1)]), ("r2", [("r1", 1), ("r2", 1)])] := by
  have hnames : featureNames [("r1", [("a", (1:ℚ))]), ("r2", [("a", 1)])] = ["a"] := by
    decide
  have hvec1 : featVector [("r1", [("a", (1:ℚ))]), ("r2", [("a", 1)])] ["a"] "r1"
      = [1] := by decide
  have hvec2 : featVector [("r1", [("a", (1:ℚ))]), ("r2", [("a", 1)])] ["a"] "r2"
      = [1] := by decide
  simp only [computeRecipeSimilarity]
  norm_num [tieFeatures, List.enum, List.enumFrom, hnames, hvec1, hvec2,
    cosineSim_one_one]

/-- **C7** (code bug, failing input): with the feature table
`{"r1": {"a": 1}, "r2": {"a": 1}}` — two recipes with identical feature
vectors — `get_similar_recipes("r2", 5)` returns `["r2"]`: the sorted
row ties at similarity 1.0, the stable sort leaves `("r1", 1.0)` first,
and `similar_recipes[1:n+1]` blindly drops position 0, so the returned
list *contains* the queried recipe itself and omits `"r1"`, contrary to
the claim (and to the code's own comment "excluding the recipe
itself"). -/
theorem claimC7_code_bug_eval :
    getSimilarRecipes (computeRecipeSimilarity tieFeatures []) "r2" 5 = ["r2"] ∧
    "r2" ∈ getSimilarRecipes (computeRecipeSimilarity tieFeatures []) "r2" 5 ∧
    "r1" ∉ getSimilarRecipes (computeRecipeSimilarity tieFeatures []) "r2" 5 := by
  have hmem : "r2" ∈ (computeRecipeSimilarity tieFeatures []).map (·.1) := by
    rw [tieFeatures_matrix]
    simp
  have hrow : lookupD (computeRecipeSimilarity tieFeatures []) "r2"
      ([] : List (String × ℝ)) = [("r1", 1), ("r2", 1)] := by
    rw [tieFeatures_matrix]
    simp [lookupD, List.find?]
  have hsort : insSortBy (fun kv : String × ℝ => kv.2) [("r1", (1:ℝ)), ("r2", 1)]
      = [("r1", 1), ("r2", 1)] := by
    simp [insSortBy, insDesc]
  have key : getSimilarRecipes (computeRecipeSimilarity tieFeatures []) "r2" 5
      = ["r2"] := by
    unfold getSimilarRecipes
    rw [if_pos hmem, hrow, hsort]
    simp
  refine ⟨key, by rw [key]; simp, by rw [key]; simp⟩

/-! ## C10: missing-key lookups return empty lists -/

/-- **C10**: a similar-recipes lookup for a recipe id absent from the
similarity matrix returns `[]`, and a personalized-recommendation call
for a user with no stored ratings returns `[]`; neither raises. -/
theorem claimC10 (m : SimMatrix) (recipeId : String) (n : Nat)
    (up : UserPrefs) (fm : FeatMap) (userId : String) (n' : Nat)
    (h1 : recipeId ∉ m.map (·.1)) (h2 : userId ∉ up.map (·.1)) :
    getSimilarRecipes m recipeId n = [] ∧
    getPersonalizedRecommendations up fm m userId n' = [] := by
  constructor
  · simp [getSimilarRecipes, h1]
  · simp [getPersonalizedRecommendations, h2]

/-- Witness for C10: concrete empty state and unknown identifiers. -/
theorem claimC10_witness :
    getSimilarRecipes [] "missing-recipe" 5 = [] ∧
    getPersonalizedRecommendations [] [] [] "new-user" 5 = [] :=
  claimC10 [] "missing-recipe" 5 [] [] "new-user" 5 (by simp) (by simp)

end Feast
